import Mathlib

/-!
# Object pools of the workshop: `MessagePool` and `PacketPool`

Shallow embedding of

* `Workshop-01-ModernC++DesignTechniques/01_final_project.cpp` (`MessagePool`),
* `Workshop-01-ModernC++DesignTechniques/03-Optimizations/03_object_pooling.cpp`
  (`PacketPool`).

Both classes keep a `std::queue` of raw pointers, guarded by one mutex and one
condition variable.  A pointer is modelled by the identity of the object it
points to, the queue by a list whose head is the front of the queue.
-/

/-- Identity of a heap object: what a `Message*` or a `Packet*` points to. -/
abbrev Ptr := Nat

/-! ## `std::queue<T*>` -/

namespace Queue

/-- `q.empty()`. -/
def empty (q : List Ptr) : Bool :=
  match q with
  | [] => true
  | _ :: _ => false

/-- `q.front()`: the oldest element; `none` is the undefined behaviour of
`front()` on an empty queue. -/
def front (q : List Ptr) : Option Ptr :=
  match q with
  | [] => none
  | x :: _ => some x

/-- `q.pop()`: drops the oldest element; `none` is the undefined behaviour of
`pop()` on an empty queue. -/
def pop (q : List Ptr) : Option (List Ptr) :=
  match q with
  | [] => none
  | _ :: rest => some rest

/-- `q.push(x)` (and `q.emplace(x)` for a pointer): appends at the back. -/
def push (q : List Ptr) (x : Ptr) : List Ptr :=
  q ++ [x]

end Queue

/-! ## The free store -/

/-- The free store as far as the pools use it: which objects are alive, which
have been destroyed, and counters of the `new` expressions evaluated. -/
structure Heap where
  /-- identity given to the next object constructed -/
  next : Nat
  /-- objects constructed and not destroyed, oldest first -/
  live : List Ptr
  /-- objects destroyed by `delete`, oldest first -/
  destroyed : List Ptr
  /-- number of `new` expressions evaluated so far, failed ones included -/
  attempts : Nat
  /-- number of constructions that completed -/
  constructions : Nat
  deriving DecidableEq, Repr

namespace Heap

/-- A free store on which nothing has happened yet. -/
def fresh : Heap :=
  { next := 0, live := [], destroyed := [], attempts := 0, constructions := 0 }

/-- One `new Message()` / `new Packet()`.  `throws k` tells whether the
`k`-th `new` expression of the run (counted from 0) throws: the allocation or
the constructor may fail.  A failed `new` yields no object. -/
def new (throws : Nat → Bool) (h : Heap) : Option Ptr × Heap :=
  if throws h.attempts then
    (none, { h with attempts := h.attempts + 1 })
  else
    (some h.next,
      { h with
        next := h.next + 1
        live := h.live ++ [h.next]
        attempts := h.attempts + 1
        constructions := h.constructions + 1 })

/-- The free store `h` after `n` further `new` expressions, all successful. -/
def afterNew (h : Heap) (n : Nat) : Heap :=
  { next := h.next + n
    live := h.live ++ List.range' h.next n
    destroyed := h.destroyed
    attempts := h.attempts + n
    constructions := h.constructions + n }

/-- The free store `h` after `n` successful `new` expressions and one more
that failed. -/
def afterFailedNew (h : Heap) (n : Nat) : Heap :=
  { h.afterNew n with attempts := h.attempts + n + 1 }

end Heap

/-! ## The pools

`MessagePool` and `PacketPool` have the same single data member besides the
mutex and the condition variable: `std::queue<T*> pool`. -/

/-- The data member `pool` of `MessagePool`. -/
structure MessagePool where
  pool : List Ptr
  deriving DecidableEq, Repr

/-- The data member `pool` of `PacketPool`. -/
structure PacketPool where
  pool : List Ptr
  deriving DecidableEq, Repr

/-- Result of a constructor call: the object built and the free store, or the
free store at the moment an exception left the constructor.  When an exception
leaves a constructor body the destructor of the class is not run; only the
member `pool`, a queue of raw pointers, is destroyed, which deletes no
pointee. -/
inductive Constructed (α : Type) where
  | built (self : α) (h : Heap)
  | threw (h : Heap)
  deriving DecidableEq, Repr

/-- What a call of `acquire` / `getPacket` does in a given state of the queue,
the critical section taken as one step. -/
inductive Acquired (α : Type) where
  /-- the wait condition does not hold: the caller stays inside `cv.wait` -/
  | blocks
  /-- `front()` or `pop()` was reached on an empty queue -/
  | undefined
  /-- the call returns `msg` and leaves the pool as `self` -/
  | returns (msg : Ptr) (self : α)
  deriving DecidableEq, Repr

namespace MessagePool

/-- The loop of `MessagePool(size_t size)`, `n` iterations left:
`pool.emplace(new Message())`. -/
def ctorLoop (throws : Nat → Bool) : Nat → List Ptr → Heap → Constructed MessagePool
  | 0, pool, h => .built ⟨pool⟩ h
  | n + 1, pool, h =>
    match h.new throws with
    | (none, h1) => .threw h1
    | (some p, h1) => ctorLoop throws n (Queue.push pool p) h1

/-- The constructor `MessagePool(size_t size)`. -/
def ctor (throws : Nat → Bool) (size : Nat) (h : Heap) : Constructed MessagePool :=
  ctorLoop throws size [] h

/-- The method `acquire()`: `cv.wait(lock, [this] { return !pool.empty(); })`,
then `pool.front()`, `pool.pop()`. -/
def acquire (self : MessagePool) : Acquired MessagePool :=
  if !(!Queue.empty self.pool) then .blocks
  else
    match Queue.front self.pool with
    | none => .undefined
    | some msg =>
      match Queue.pop self.pool with
      | none => .undefined
      | some rest => .returns msg ⟨rest⟩

/-- The method `release(msg)`: `pool.push(msg.release())`. -/
def release (self : MessagePool) (msg : Ptr) : MessagePool :=
  ⟨Queue.push self.pool msg⟩

end MessagePool

namespace PacketPool

/-- The loop of `PacketPool(size_t size)`, `n` iterations left:
`pool.push(new Packet())`. -/
def ctorLoop (throws : Nat → Bool) : Nat → List Ptr → Heap → Constructed PacketPool
  | 0, pool, h => .built ⟨pool⟩ h
  | n + 1, pool, h =>
    match h.new throws with
    | (none, h1) => .threw h1
    | (some p, h1) => ctorLoop throws n (Queue.push pool p) h1

/-- The constructor `PacketPool(size_t size)`. -/
def ctor (throws : Nat → Bool) (size : Nat) (h : Heap) : Constructed PacketPool :=
  ctorLoop throws size [] h

/-- The method `getPacket()`: `while (pool.empty()) cv.wait(lock);`, then
`pool.front()`, `pool.pop()`. -/
def getPacket (self : PacketPool) : Acquired PacketPool :=
  if Queue.empty self.pool then .blocks
  else
    match Queue.front self.pool with
    | none => .undefined
    | some packet =>
      match Queue.pop self.pool with
      | none => .undefined
      | some rest => .returns packet ⟨rest⟩

/-- The method `returnPacket(packet)`: `pool.push(packet)`. -/
def returnPacket (self : PacketPool) (packet : Ptr) : PacketPool :=
  ⟨Queue.push self.pool packet⟩

end PacketPool

/-! ## Callers: sequences of operations

The pool keeps no record of the items it has handed out.  To speak about them
the state of a pool is paired with the list of items its callers hold. -/

/-- Which of the two classes is meant. -/
inductive Impl where
  | messagePool
  | packetPool
  deriving DecidableEq, Repr

namespace Impl

/-- The constructor of the class, on the queue it builds. -/
def ctor (i : Impl) (throws : Nat → Bool) (size : Nat) (h : Heap) : Constructed (List Ptr) :=
  match i with
  | .messagePool =>
    match MessagePool.ctor throws size h with
    | .built self h1 => .built self.pool h1
    | .threw h1 => .threw h1
  | .packetPool =>
    match PacketPool.ctor throws size h with
    | .built self h1 => .built self.pool h1
    | .threw h1 => .threw h1

/-- The method `acquire` / `getPacket` of the class, on the queue. -/
def acquire (i : Impl) (q : List Ptr) : Acquired (List Ptr) :=
  match i with
  | .messagePool =>
    match MessagePool.acquire ⟨q⟩ with
    | .blocks => .blocks
    | .undefined => .undefined
    | .returns msg self => .returns msg self.pool
  | .packetPool =>
    match PacketPool.getPacket ⟨q⟩ with
    | .blocks => .blocks
    | .undefined => .undefined
    | .returns packet self => .returns packet self.pool

/-- The method `release` / `returnPacket` of the class, on the queue. -/
def release (i : Impl) (q : List Ptr) (x : Ptr) : List Ptr :=
  match i with
  | .messagePool => (MessagePool.release ⟨q⟩ x).pool
  | .packetPool => (PacketPool.returnPacket ⟨q⟩ x).pool

end Impl

/-- A pool and its callers: the available queue and the items out on lease. -/
structure Sys where
  /-- the member `pool`: the available items, front first -/
  pool : List Ptr
  /-- the items returned by `acquire` and not yet passed to `release` -/
  leased : List Ptr
  deriving DecidableEq, Repr

/-- One operation on the pool. -/
inductive Op where
  | acquire
  | release (x : Ptr)
  deriving DecidableEq, Repr

namespace Sys

/-- The state right after construction: nothing is out on lease. -/
def ofPool (q : List Ptr) : Sys :=
  ⟨q, []⟩

/-- One completed operation.  `none`: the operation does not return in this
state (an `acquire` that stays blocked).  `release` is executed as the code
does it, whatever the item; the caller gives up one lease of the item if it
has one. -/
def step (i : Impl) (s : Sys) : Op → Option Sys
  | .acquire =>
    match i.acquire s.pool with
    | .returns x q => some ⟨q, x :: s.leased⟩
    | .blocks => none
    | .undefined => none
  | .release x => some ⟨i.release s.pool x, s.leased.erase x⟩

/-- Runs a sequence of operations, each one completing before the next. -/
def run (i : Impl) : Sys → List Op → Option Sys
  | s, [] => some s
  | s, op :: ops =>
    match s.step i op with
    | none => none
    | some s1 => run i s1 ops

/-- The contract of the callers is met by one operation: an item passed to
`release` is currently leased from this pool. -/
def allowed (s : Sys) : Op → Bool
  | .acquire => true
  | .release x => decide (x ∈ s.leased)

/-- The contract of the callers is met along a sequence of operations. -/
def legal (i : Impl) : Sys → List Op → Bool
  | _, [] => true
  | s, op :: ops =>
    s.allowed op &&
      match s.step i op with
      | none => true
      | some s1 => legal i s1 ops

end Sys

/-! ## Threads

The methods as the threads execute them, statement by statement, under the
mutex `m` and the condition variable `cv`.  `MessagePool::acquire` waits with
`cv.wait(lock, pred)`, which is `while (!pred()) cv.wait(lock);`, the loop
`PacketPool::getPacket` spells out; `release` and `returnPacket` are the same
statements.  One model serves both classes. -/

/-- Where a thread stands. -/
inductive Pc where
  /-- outside the methods of the pool -/
  | idle
  /-- in `acquire`, at `std::unique_lock<std::mutex> lock(m)` -/
  | acqLock
  /-- in `acquire`, holding `m`, at the test `pool.empty()` of the wait loop -/
  | acqTest
  /-- in `acquire`, inside `cv.wait(lock)`: `m` given up, blocked on `cv` -/
  | acqWait
  /-- in `acquire`, inside `cv.wait(lock)`: woken up, locking `m` again -/
  | acqWoken
  /-- in `acquire`, holding `m`, past the loop, at `pool.front(); pool.pop()` -/
  | acqPop
  /-- in `release(x)`, at `std::unique_lock<std::mutex> lock(m)` -/
  | relLock (x : Ptr)
  /-- in `release(x)`, holding `m`, at `pool.push(x)` -/
  | relPush (x : Ptr)
  /-- in `release`, holding `m`, at `cv.notify_one()` -/
  | relNotify
  deriving DecidableEq, Repr

/-- What the scheduler lets happen next. -/
inductive Event where
  /-- thread `t` calls `acquire()` -/
  | callAcquire (t : Nat)
  /-- thread `t` calls `release(x)` -/
  | callRelease (t : Nat) (x : Ptr)
  /-- thread `t` executes the statement it stands at -/
  | run (t : Nat)
  /-- thread `t`, at `cv.notify_one()`, wakes the waiting thread `u` -/
  | notify (t : Nat) (u : Nat)
  /-- the `cv.wait` of thread `t` returns without a notification -/
  | spurious (t : Nat)
  deriving DecidableEq, Repr

/-- A pool shared by threads. -/
structure Shared where
  /-- the member `pool` -/
  pool : List Ptr
  /-- the member `m`: the thread holding the mutex, if any -/
  m : Option Nat
  /-- where each thread stands -/
  pcs : List Pc
  /-- the calls of `acquire` that have returned: thread and item, oldest first -/
  returned : List (Nat × Ptr)
  /-- `front()` or `pop()` has been executed on an empty queue -/
  undefined : Bool
  deriving DecidableEq, Repr

namespace Shared

/-- A pool holding `q`, with `n` threads, none of them inside a method. -/
def start (q : List Ptr) (n : Nat) : Shared :=
  { pool := q, m := none, pcs := List.replicate n Pc.idle, returned := [], undefined := false }

/-- Some thread is blocked on `cv`. -/
def hasWaiter (w : Shared) : Bool :=
  w.pcs.any fun pc => decide (pc = Pc.acqWait)

/-- Thread `t` locks `m` and goes on to `pc`; not possible while `m` is held. -/
def lock (w : Shared) (t : Nat) (pc : Pc) : Option Shared :=
  match w.m with
  | none => some { w with m := some t, pcs := w.pcs.set t pc }
  | some _ => none

/-- One event.  `none`: the event cannot happen in this state. -/
def step (w : Shared) : Event → Option Shared
  | .callAcquire t =>
    match w.pcs[t]? with
    | some .idle => some { w with pcs := w.pcs.set t .acqLock }
    | _ => none
  | .callRelease t x =>
    match w.pcs[t]? with
    | some .idle => some { w with pcs := w.pcs.set t (.relLock x) }
    | _ => none
  | .spurious t =>
    match w.pcs[t]? with
    | some .acqWait => some { w with pcs := w.pcs.set t .acqWoken }
    | _ => none
  | .notify t u =>
    match w.pcs[t]?, w.pcs[u]? with
    | some .relNotify, some .acqWait =>
      some { w with m := none, pcs := (w.pcs.set u .acqWoken).set t .idle }
    | _, _ => none
  | .run t =>
    match w.pcs[t]? with
    | some .acqLock => w.lock t .acqTest
    | some .acqWoken => w.lock t .acqTest
    | some .acqTest =>
      if Queue.empty w.pool then
        some { w with m := none, pcs := w.pcs.set t .acqWait }
      else
        some { w with pcs := w.pcs.set t .acqPop }
    | some .acqPop =>
      match Queue.front w.pool, Queue.pop w.pool with
      | some x, some rest =>
        some { w with
          pool := rest
          m := none
          pcs := w.pcs.set t .idle
          returned := w.returned ++ [(t, x)] }
      | _, _ => some { w with undefined := true }
    | some (.relLock x) => w.lock t (.relPush x)
    | some (.relPush x) =>
      some { w with pool := Queue.push w.pool x, pcs := w.pcs.set t .relNotify }
    | some .relNotify =>
      if w.hasWaiter then none
      else some { w with m := none, pcs := w.pcs.set t .idle }
    | _ => none

/-- Runs a schedule; `none` when one of its events cannot happen. -/
def exec : Shared → List Event → Option Shared
  | w, [] => some w
  | w, e :: es =>
    match w.step e with
    | none => none
    | some w1 => exec w1 es

end Shared

/-- The thread stands inside a critical section: between locking `m` and
giving it up. -/
def Pc.inCritical : Pc → Bool
  | .acqTest => true
  | .acqPop => true
  | .relPush _ => true
  | .relNotify => true
  | _ => false

/-- What holds in every state the threads can reach: no undefined behaviour
has happened, a thread inside a critical section holds `m`, and a thread that
stands at `pool.front(); pool.pop()` finds the queue non-empty. -/
def Shared.Inv (w : Shared) : Prop :=
  w.undefined = false ∧
    (∀ (t : Nat) (pc : Pc), w.pcs[t]? = some pc → pc.inCritical = true → w.m = some t) ∧
    (∀ t : Nat, w.pcs[t]? = some Pc.acqPop → w.pool ≠ [])

/-- The thread stands inside `release`. -/
def Pc.inRelease : Pc → Bool
  | .relLock _ => true
  | .relPush _ => true
  | .relNotify => true
  | _ => false

/-- The event is a call of `release`. -/
def Event.isCallRelease : Event → Bool
  | .callRelease _ _ => true
  | _ => false

/-- What holds as long as no thread has called `release` on a pool that
started with the queue `q`: no thread is inside `release`, and the items
returned so far, in the order of their return, followed by the queue, are
`q`. -/
def Shared.NoRelease (q : List Ptr) (w : Shared) : Prop :=
  (∀ (t : Nat) (pc : Pc), w.pcs[t]? = some pc → pc.inRelease = false) ∧
    w.returned.map Prod.snd ++ w.pool = q

/-! ## Destruction of a pool -/

/-- The expression `delete p`: the object is destroyed and is no longer
alive. -/
def Heap.delete (h : Heap) (p : Ptr) : Heap :=
  { h with live := h.live.erase p, destroyed := h.destroyed ++ [p] }

/-- The destructor `~MessagePool()`:
`while (!pool.empty()) { delete pool.front(); pool.pop(); }`.  The first
equation is the exit of the loop on `pool.empty()`; in the second `x` is
`pool.front()` and `rest` the queue after `pool.pop()`. -/
def MessagePool.dtor : List Ptr → Heap → MessagePool × Heap
  | [], h => (⟨[]⟩, h)
  | x :: rest, h => MessagePool.dtor rest (h.delete x)

/-- The destructor `~PacketPool()`:
`while (!pool.empty()) { delete pool.front(); pool.pop(); }`. -/
def PacketPool.dtor : List Ptr → Heap → PacketPool × Heap
  | [], h => (⟨[]⟩, h)
  | x :: rest, h => PacketPool.dtor rest (h.delete x)

/-- The destructor of the class, on the queue: the queue it leaves and the
free store after it. -/
def Impl.dtor (i : Impl) (q : List Ptr) (h : Heap) : List Ptr × Heap :=
  match i with
  | .messagePool => ((MessagePool.dtor q h).1.pool, (MessagePool.dtor q h).2)
  | .packetPool => ((PacketPool.dtor q h).1.pool, (PacketPool.dtor q h).2)

/-! ## Error code lookup tables

`07_final_exercise.cpp` and `08_final_project.cpp` each define
`getErrorMessage` and the class `ErrorCodeLookup`.  An `int` code is an
integer; a message (`const char*` to a literal, `std::string_view`) is the
string it denotes. -/

namespace Exercise07

/-- The function `getErrorMessage(int code)` of `07_final_exercise.cpp`: the
`switch` over the code. -/
def getErrorMessage (code : Int) : String :=
  if code = 404 then "Not Found"
  else if code = 500 then "Internal Server Error"
  else if code = 503 then "Service Unavailable"
  else "Unknown Error"

namespace ErrorCodeLookup

/-- The member `errorTable` as the constructor fills it. -/
def errorTable : List (Int × String) :=
  [(404, getErrorMessage 404), (500, getErrorMessage 500), (503, getErrorMessage 503)]

/-- The loop of `operator[]` over the table entries still to visit, and the
`return getErrorMessage(-1)` behind it. -/
def subscriptLoop : List (Int × String) → Int → String
  | [], _ => getErrorMessage (-1)
  | (errCode, errMsg) :: rest, code =>
    if errCode = code then errMsg else subscriptLoop rest code

/-- The member `operator[](int code)`. -/
def subscript (code : Int) : String :=
  subscriptLoop errorTable code

end ErrorCodeLookup

end Exercise07

namespace Project08

/-- The function `getErrorMessage(int code)` of `08_final_project.cpp`: the
`switch` over the code. -/
def getErrorMessage (code : Int) : String :=
  if code = 404 then "Not Found"
  else if code = 500 then "Internal Server Error"
  else if code = 503 then "Service Unavailable"
  else "Unknown Error"

/-- The struct `ErrorCodeMessage`. -/
structure ErrorCodeMessage where
  code : Int
  message : String
  deriving DecidableEq, Repr

namespace ErrorCodeLookup

/-- The member `errorTable` as the constructor fills it. -/
def errorTable : List ErrorCodeMessage :=
  [⟨404, getErrorMessage 404⟩, ⟨500, getErrorMessage 500⟩, ⟨503, getErrorMessage 503⟩]

/-- The loop of `operator[]` over the table entries still to visit, and the
`return getErrorMessage(-1)` behind it. -/
def subscriptLoop : List ErrorCodeMessage → Int → String
  | [], _ => getErrorMessage (-1)
  | e :: rest, code =>
    if e.code = code then e.message else subscriptLoop rest code

/-- The member `operator[](int code)`. -/
def subscript (code : Int) : String :=
  subscriptLoop errorTable code

end ErrorCodeLookup

end Project08

/-! ## The protocol flyweight factory

`flyweight_protocol.cpp`.  A `std::shared_ptr<Protocol>` is modelled by the
identity of the `Protocol` object it owns. -/

/-- The class `Protocol`: its three data members. -/
structure Protocol where
  name_ : String
  version_ : String
  encryption_ : String
  deriving DecidableEq, Repr

/-- The class `ProtocolFactory`, with the `Protocol` objects it has created. -/
structure ProtocolFactory where
  /-- the member `protocols_`: key and the object the stored pointer owns -/
  protocols_ : List (String × Ptr)
  /-- the objects created by `std::make_shared<Protocol>`, oldest first -/
  created : List (Ptr × Protocol)
  /-- identity given to the next object created -/
  next : Ptr
  deriving DecidableEq, Repr

namespace ProtocolFactory

/-- The call `protocols_.find(key)`: the pointer stored under the key, `none`
for `protocols_.end()`. -/
def find : List (String × Ptr) → String → Option Ptr
  | [], _ => none
  | (k, p) :: rest, key => if k = key then some p else find rest key

/-- The assignment `protocols_[key] = protocol`: replaces the pointer stored
under the key, or adds an entry when there is none. -/
def assign : List (String × Ptr) → String → Ptr → List (String × Ptr)
  | [], key, protocol => [(key, protocol)]
  | (k, p) :: rest, key, protocol =>
    if k = key then (k, protocol) :: rest else (k, p) :: assign rest key protocol

/-- The method `getProtocol(name, version, encryption)`, the body under the
lock taken as one step: the pointer returned and the factory afterwards. -/
def getProtocol (self : ProtocolFactory) (name version encryption : String) :
    Ptr × ProtocolFactory :=
  let key := name ++ version ++ encryption
  match find self.protocols_ key with
  | some p => (p, self)
  | none =>
    let protocol := self.next
    (protocol,
      { protocols_ := assign self.protocols_ key protocol
        created := self.created ++ [(protocol, ⟨name, version, encryption⟩)]
        next := self.next + 1 })

/-- A sequence of calls of `getProtocol`, one after the other; the pointers
returned are dropped. -/
def getProtocols (self : ProtocolFactory) : List (String × String × String) → ProtocolFactory
  | [] => self
  | (name, version, encryption) :: rest =>
    getProtocols (self.getProtocol name version encryption).2 rest

end ProtocolFactory

/-! ## The router network

`03_final_projet.cpp`.  A `std::unordered_map<int, T>` is modelled by a list
of key/value entries with at most one entry per key; the order of the list
is the order a range-`for` visits the entries in.  An `int` is an integer;
where the program adds two `int`s the sum is wrapped to 32 bits. -/

/-- The constant `std::numeric_limits<int>::max()`. -/
def INT_MAX : Int := 2147483647

/-- The value of an `int` expression whose mathematical value is `z`, on a
32-bit two's complement `int`. -/
def wrapInt (z : Int) : Int :=
  (z + 2147483648) % 4294967296 - 2147483648

namespace UMap

variable {β : Type}

/-- The call `m.find(k)`: the value stored under `k`, `none` for `m.end()`. -/
def find : List (Int × β) → Int → Option β
  | [], _ => none
  | (k1, v1) :: rest, k => if k1 = k then some v1 else find rest k

/-- The assignment `m[k] = v`: replaces the value stored under `k`, or adds an
entry when there is none. -/
def assign : List (Int × β) → Int → β → List (Int × β)
  | [], k, v => [(k, v)]
  | (k1, v1) :: rest, k, v =>
    if k1 = k then (k1, v) :: rest else (k1, v1) :: assign rest k v

/-- The call `m.erase(k)`: removes the entry stored under `k`, if any. -/
def erase (m : List (Int × β)) (k : Int) : List (Int × β) :=
  m.filter fun e => decide (e.1 ≠ k)

/-- The expression `m[k]` read as a value: the value stored under `k`; when
there is none, an entry with the value-initialised `dflt` is added first.
Returns the value and the map afterwards. -/
def subscript (dflt : β) (m : List (Int × β)) (k : Int) : β × List (Int × β) :=
  match find m k with
  | some v => (v, m)
  | none => (dflt, m ++ [(k, dflt)])

/-- No two entries have the same key. -/
def WF (m : List (Int × β)) : Prop :=
  (m.map Prod.fst).Nodup

end UMap

/-- The class `Network`: its data member `adj_list`. -/
structure Network where
  adj_list : List (Int × List (Int × Int))
  deriving DecidableEq, Repr

namespace Network

/-- A network on which no operation has been called. -/
def empty : Network :=
  ⟨[]⟩

/-- The method `AddRouter(router_id)`: `adj_list[router_id];`. -/
def AddRouter (self : Network) (router_id : Int) : Network :=
  ⟨(UMap.subscript [] self.adj_list router_id).2⟩

/-- The method `AddConnection(router_id1, router_id2, cost)`:
`adj_list[router_id1][router_id2] = cost;`. -/
def AddConnection (self : Network) (router_id1 router_id2 cost : Int) : Network :=
  let inner := UMap.subscript [] self.adj_list router_id1
  ⟨UMap.assign inner.2 router_id1 (UMap.assign inner.1 router_id2 cost)⟩

/-- The method `RemoveConnection(router_id1, router_id2)`:
`adj_list[router_id1].erase(router_id2);`. -/
def RemoveConnection (self : Network) (router_id1 router_id2 : Int) : Network :=
  let inner := UMap.subscript [] self.adj_list router_id1
  ⟨UMap.assign inner.2 router_id1 (UMap.erase inner.1 router_id2)⟩

/-- The cost stored for the direct connection `a -> b`; `none` when there is
no such connection. -/
def cost (self : Network) (a b : Int) : Option Int :=
  match UMap.find self.adj_list a with
  | none => none
  | some inner => UMap.find inner b

/-- The router `a` is a key of `adj_list`. -/
def hasRouter (self : Network) (a : Int) : Bool :=
  (UMap.find self.adj_list a).isSome

/-- No router has two entries in `adj_list`, and no router has two
connections to the same router. -/
def WF (self : Network) : Prop :=
  UMap.WF self.adj_list ∧ ∀ e ∈ self.adj_list, UMap.WF e.2

/-- One call that builds the network. -/
inductive Call where
  | addRouter (router_id : Int)
  | addConnection (router_id1 router_id2 cost : Int)
  | removeConnection (router_id1 router_id2 : Int)
  deriving DecidableEq, Repr

/-- The network after one more call. -/
def call (self : Network) : Call → Network
  | .addRouter r => self.AddRouter r
  | .addConnection a b c => self.AddConnection a b c
  | .removeConnection a b => self.RemoveConnection a b

/-- The network built by a sequence of calls on a new `Network`. -/
def build (calls : List Call) : Network :=
  calls.foldl call empty

end Network

/-! ### Least cost paths -/

namespace PQ

/-- The order `std::greater<>` sorts the queue by: pairs compare by their
first component, then by their second. -/
def pairLt (a b : Int × Int) : Bool :=
  decide (a.1 < b.1) || (decide (a.1 = b.1) && decide (a.2 < b.2))

/-- The call `pq.top()` of the min-queue: a least pair; `none` when the queue
is empty. -/
def top : List (Int × Int) → Option (Int × Int)
  | [] => none
  | x :: rest =>
    match top rest with
    | none => some x
    | some y => if pairLt y x then some y else some x

/-- The call `pq.pop()`: removes one occurrence of the least pair `t`. -/
def pop (pq : List (Int × Int)) (t : Int × Int) : List (Int × Int) :=
  pq.erase t

/-- The call `pq.push(x)`. -/
def push (pq : List (Int × Int)) (x : Int × Int) : List (Int × Int) :=
  pq ++ [x]

end PQ

/-- The state of `GetLeastCostPath` while it runs: the member `adj_list` and
the locals `dist`, `prev`, `pq`. -/
structure Dijkstra where
  adj_list : List (Int × List (Int × Int))
  dist : List (Int × Int)
  prev : List (Int × Int)
  pq : List (Int × Int)
  deriving DecidableEq, Repr

namespace Network

/-- The loop `for (const auto& [router_id, _] : adj_list)
dist[router_id] = INT_MAX;`. -/
def initDist (adj_list : List (Int × List (Int × Int))) : List (Int × Int) :=
  adj_list.foldl (fun dist e => UMap.assign dist e.1 INT_MAX) []

/-- One iteration of `for (const auto& [v, cost] : adj_list[u])`:
`if (dist[u] + cost < dist[v]) { dist[v] = dist[u] + cost; prev[v] = u;
pq.push({dist[v], v}); }`.  Reading `dist[u]` and `dist[v]` adds an entry with
value 0 for a key that has none. -/
def relax (u : Int) (st : Dijkstra) (e : Int × Int) : Dijkstra :=
  let du := UMap.subscript 0 st.dist u
  let dv := UMap.subscript 0 du.2 e.1
  if wrapInt (du.1 + e.2) < dv.1 then
    { st with
      dist := UMap.assign dv.2 e.1 (wrapInt (du.1 + e.2))
      prev := UMap.assign st.prev e.1 u
      pq := PQ.push st.pq (wrapInt (du.1 + e.2), e.1) }
  else
    { st with dist := dv.2 }

/-- The loop `while (!pq.empty())`, at most `fuel` iterations of it; `none`
when the queue is not empty after `fuel` iterations. -/
def mainLoop : Nat → Dijkstra → Option Dijkstra
  | 0, st =>
    match PQ.top st.pq with
    | none => some st
    | some _ => none
  | fuel + 1, st =>
    match PQ.top st.pq with
    | none => some st
    | some t =>
      let u := t.2
      let inner := UMap.subscript [] st.adj_list u
      mainLoop fuel
        (inner.1.foldl (relax u) { st with adj_list := inner.2, pq := PQ.pop st.pq t })

/-- The loop `for (int u = router_id2; u != router_id1; u = prev[u])
path.push_back(u);`, at most `fuel` iterations of it; `none` when
`u != router_id1` still holds after `fuel` iterations.  Reading `prev[u]` adds
an entry with value 0 for a key that has none. -/
def pathLoop (router_id1 : Int) : Nat → List (Int × Int) → Int → List Int → Option (List Int)
  | 0, _, u, path => if u = router_id1 then some path else none
  | fuel + 1, prev, u, path =>
    if u = router_id1 then some path
    else
      let p := UMap.subscript 0 prev u
      pathLoop router_id1 fuel p.2 p.1 (path ++ [u])

/-- The method `GetLeastCostPath(router_id1, router_id2)`, each of its two
unbounded loops run for at most `fuel` iterations; `none` when one of them
has not finished by then.  Returns the path and the network afterwards (the
method reads `adj_list[u]`, which can add a router). -/
def GetLeastCostPath (fuel : Nat) (self : Network) (router_id1 router_id2 : Int) :
    Option (List Int × Network) :=
  let dist := UMap.assign (initDist self.adj_list) router_id1 0
  match mainLoop fuel ⟨self.adj_list, dist, [], PQ.push [] (0, router_id1)⟩ with
  | none => none
  | some st =>
    match pathLoop router_id1 fuel st.prev router_id2 [] with
    | none => none
    | some path => some ((path ++ [router_id1]).reverse, ⟨st.adj_list⟩)

/-- The loop of `GetLeastCost` over the consecutive pairs of the path:
`cost += adj_list[path[i]][path[i + 1]];`.  The path is never empty, so
`path.size() - 1` does not wrap around. -/
def costLoop : List Int → List (Int × List (Int × Int)) → Int →
    Int × List (Int × List (Int × Int))
  | a :: b :: rest, adj_list, cost =>
    let inner := UMap.subscript [] adj_list a
    let c := UMap.subscript 0 inner.1 b
    costLoop (b :: rest) (UMap.assign inner.2 a c.2) (wrapInt (cost + c.1))
  | _, adj_list, cost => (cost, adj_list)

/-- The method `GetLeastCost(router_id1, router_id2)`; `none` when
`GetLeastCostPath` has not returned within `fuel` iterations of its loops. -/
def GetLeastCost (fuel : Nat) (self : Network) (router_id1 router_id2 : Int) :
    Option (Int × Network) :=
  match GetLeastCostPath fuel self router_id1 router_id2 with
  | none => none
  | some (path, net) =>
    let r := costLoop path net.adj_list 0
    some (r.1, ⟨r.2⟩)

end Network

/-! ## The interval map

`interval_map.cpp`, the class `IntervalMap<K, V>` with `K = int`.  The member
`std::map<K, V> intervals` is modelled by the list of its entries in key
order.  An iterator is modelled by the key of the element it refers to,
`none` being `intervals.end()`. -/

/-- How a call of a method of `IntervalMap` ends. -/
inductive Outcome (α : Type) where
  /-- the call returns -/
  | returns (a : α)
  /-- the call throws `std::out_of_range` -/
  | out_of_range
  /-- the call does not return: it faults on an invalidated iterator, or
  steps back from `begin()` -/
  | undefined
  deriving DecidableEq, Repr

namespace IntervalMap

variable {V : Type}

/-- The entries are in strictly increasing key order, as in every
`std::map`. -/
def Sorted (intervals : List (Int × V)) : Prop :=
  intervals.Pairwise fun a b => a.1 < b.1

/-- The call `intervals.lower_bound(k)`: the first element whose key is not
less than `k`. -/
def lower_bound : List (Int × V) → Int → Option Int
  | [], _ => none
  | (k1, _) :: rest, k => if k ≤ k1 then some k1 else lower_bound rest k

/-- The call `intervals.upper_bound(k)`: the first element whose key is
greater than `k`. -/
def upper_bound : List (Int × V) → Int → Option Int
  | [], _ => none
  | (k1, _) :: rest, k => if k < k1 then some k1 else upper_bound rest k

/-- The call `intervals.begin()`. -/
def begin : List (Int × V) → Option Int
  | [] => none
  | (k1, _) :: _ => some k1

/-- The element `std::prev(it)` refers to: the last element before `it`;
`none` when there is no element before `it`. -/
def prev (intervals : List (Int × V)) (it : Option Int) : Option (Int × V) :=
  match it with
  | none => intervals.getLast?
  | some k => (intervals.filter fun e => decide (e.1 < k)).getLast?

/-- The element `it` refers to (`*it`); `none` for `end()`. -/
def deref : List (Int × V) → Option Int → Option (Int × V)
  | _, none => none
  | [], some _ => none
  | (k1, v1) :: rest, some k => if k1 = k then some (k1, v1) else deref rest (some k)

/-- The call `intervals.erase(first, last)`: removes the elements from
`first` up to, not including, `last`. -/
def eraseRange (intervals : List (Int × V)) (first last : Option Int) : List (Int × V) :=
  match first, last with
  | none, _ => intervals
  | some a, none => intervals.filter fun e => decide (e.1 < a)
  | some a, some b => intervals.filter fun e => decide (e.1 < a) || decide (b ≤ e.1)

/-- The call `intervals.erase(it)` for an iterator to the element with key
`k`. -/
def eraseAt (intervals : List (Int × V)) (k : Int) : List (Int × V) :=
  intervals.filter fun e => decide (e.1 ≠ k)

/-- The assignment `intervals[k] = v`: replaces the value stored under `k`, or
inserts an element at its place in key order. -/
def assign : List (Int × V) → Int → V → List (Int × V)
  | [], k, v => [(k, v)]
  | (k1, v1) :: rest, k, v =>
    if k < k1 then (k, v) :: (k1, v1) :: rest
    else if k = k1 then (k1, v) :: rest
    else (k1, v1) :: assign rest k v

/-- The block `if (itLow != intervals.begin() && std::prev(itLow)->second ==
value) { auto itPrev = std::prev(itLow); intervals.erase(itPrev);
intervals[start] = value; }`, where `itLow` is the element the iterator
refers to at that point. -/
def adjustPrev [DecidableEq V] (intervals : List (Int × V)) (itLow : Option Int)
    (start : Int) (value : V) : Outcome (List (Int × V)) :=
  if itLow ≠ begin intervals then
    match prev intervals itLow with
    | none => .undefined
    | some itPrev =>
      if itPrev.2 = value then .returns (assign (eraseAt intervals itPrev.1) start value)
      else .returns intervals
  else .returns intervals

/-- The block `if (itHigh != intervals.end() && itHigh->second == value)
{ intervals[end] = itHigh->second; }`.  The first `erase` does not touch the
element `itHigh` refers to; should `intervals.erase(itPrev)` have erased it,
`itHigh` is invalidated and the block is not modelled further. -/
def adjustNext [DecidableEq V] (intervals : List (Int × V)) (itHigh : Option Int)
    (stop : Int) (value : V) : Outcome (List (Int × V)) :=
  match itHigh with
  | none => .returns intervals
  | some k =>
    match deref intervals (some k) with
    | none => .undefined
    | some e => if e.2 = value then .returns (assign intervals stop e.2) else .returns intervals

/-- What the use of an iterator does whose node has been freed and not handed
out again.  The C++ standard leaves it undefined.  In `std::map` of libstdc++
the comparison with `begin()` compares node addresses, and `std::prev` goes by
the links still stored in the freed node: through its left child when it had
one, which leads to an element of the map; through its parent link otherwise,
which `free` of glibc has overwritten, and the program is killed by a
segmentation fault. -/
inductive Stale where
  /-- using the iterator is like using `it` (`none`: like `end()`) -/
  | denotes (it : Option Int)
  /-- using the iterator faults -/
  | faults
  deriving DecidableEq, Repr

/-- What `itLow` refers to when `set` uses it, after
`intervals.erase(itLow, itHigh)` and `intervals[start] = value`; `none` when
the use faults.  The key `start` is not in the map after the `erase`, so the
assignment allocates a node, and glibc hands out the block freed last.

* Nothing was erased (`itLow == itHigh`): `itLow` is as it was.
* One element was erased, or the whole map (`erase` then clears the tree and
  frees the first node last): the node freed last is the one `itLow` refers
  to, the new element takes it, and `itLow` refers to the new element, the one
  with the key `start`.
* Otherwise the nodes are freed in key order, the new element takes the node
  of the last erased element, and the node `itLow` refers to stays freed:
  `stale` tells what its use does. -/
def itLowWhenUsed (stale : Stale) (intervals : List (Int × V)) (itLow itHigh : Option Int)
    (start : Int) : Option (Option Int) :=
  let removed := intervals.length - (eraseRange intervals itLow itHigh).length
  if removed = 0 then some itLow
  else if removed = 1 ∨ (itLow = begin intervals ∧ itHigh = none) then some (some start)
  else
    match stale with
    | .denotes it => some it
    | .faults => none

/-- The method `set(start, end, value)` (`stop` is the parameter `end`).
The call `intervals.erase(itLow, itHigh)` invalidates the iterators to the
erased elements, `itLow` among them unless the range is empty, and the method
goes on to use `itLow`; `itLowWhenUsed` gives what it then refers to. -/
def set [DecidableEq V] (stale : Stale) (intervals : List (Int × V)) (start stop : Int)
    (value : V) : Outcome (List (Int × V)) :=
  if start ≥ stop then .returns intervals
  else
    let itLow := lower_bound intervals start
    let itHigh := upper_bound intervals stop
    let erased := eraseRange intervals itLow itHigh
    let inserted := assign erased start value
    match itLowWhenUsed stale intervals itLow itHigh start with
    | none => .undefined
    | some it =>
      match adjustPrev inserted it start value with
      | .returns adjusted => adjustNext adjusted itHigh stop value
      | .out_of_range => .out_of_range
      | .undefined => .undefined

/-- The method `get(key)`. -/
def get (intervals : List (Int × V)) (key : Int) : Outcome V :=
  let it := upper_bound intervals key
  if it = begin intervals then .out_of_range
  else
    match prev intervals it with
    | none => .undefined
    | some e => .returns e.2

end IntervalMap

/-! ## Threads: wakeups -/

/-- The thread is on its way to take an item from the queue (it will test the
queue, or has tested it and stands at the pop), or it stands at
`cv.notify_one()`. -/
def Pc.onTheWay : Pc → Bool
  | .acqLock => true
  | .acqWoken => true
  | .acqTest => true
  | .acqPop => true
  | .relNotify => true
  | _ => false

/-- The event is a call of `acquire` or of `release`. -/
def Event.isCall : Event → Bool
  | .callAcquire _ => true
  | .callRelease _ _ => true
  | _ => false

/-- No wakeup is missing: when some thread is blocked on `cv`, every item in
the queue is matched by a thread on its way to take one or standing at
`cv.notify_one()`. -/
def Shared.NoMissedWakeup (w : Shared) : Prop :=
  w.hasWaiter = true → w.pool.length ≤ w.pcs.countP Pc.onTheWay

/-- A pool of capacity 1 whose item, item 0, is held by thread 0 (thread A),
while thread 1 (thread B) is blocked in `acquire`. -/
def Shared.holderAndWaiter : Shared :=
  { pool := [], m := none, pcs := [.idle, .acqWait], returned := [(0, 0)], undefined := false }

/-- The state in which both threads have returned from `acquire`, thread B
with item 0. -/
def Shared.bothReturned : Shared :=
  { pool := [], m := none, pcs := [.idle, .idle], returned := [(0, 0), (1, 0)],
    undefined := false }

/-- The states of the two threads that can be reached from
`Shared.holderAndWaiter` before thread A calls `release`: thread B waits, or
has been woken spuriously and tests the queue again. -/
def Shared.beforeRelease : List Shared :=
  [ Shared.holderAndWaiter,
    { Shared.holderAndWaiter with pcs := [.idle, .acqWoken] },
    { Shared.holderAndWaiter with pcs := [.idle, .acqTest], m := some 1 } ]

/-- The states of the two threads that can be reached after thread A has
called `release(0)`. -/
def Shared.afterRelease : List Shared :=
  [ { Shared.holderAndWaiter with pcs := [.relLock 0, .acqWait] },
    { Shared.holderAndWaiter with pcs := [.relLock 0, .acqWoken] },
    { Shared.holderAndWaiter with pcs := [.relLock 0, .acqTest], m := some 1 },
    { Shared.holderAndWaiter with pcs := [.relPush 0, .acqWait], m := some 0 },
    { Shared.holderAndWaiter with pcs := [.relPush 0, .acqWoken], m := some 0 },
    { Shared.holderAndWaiter with pcs := [.relNotify, .acqWait], m := some 0, pool := [0] },
    { Shared.holderAndWaiter with pcs := [.relNotify, .acqWoken], m := some 0, pool := [0] },
    { Shared.holderAndWaiter with pcs := [.idle, .acqWoken], pool := [0] },
    { Shared.holderAndWaiter with pcs := [.idle, .acqTest], m := some 1, pool := [0] },
    { Shared.holderAndWaiter with pcs := [.idle, .acqPop], m := some 1, pool := [0] },
    Shared.bothReturned ]

/-- The events of two threads that are not calls. -/
def Event.ofTwoThreads : List Event :=
  [.run 0, .run 1, .notify 0 0, .notify 0 1, .notify 1 0, .notify 1 1,
    .spurious 0, .spurious 1]

/-- Every event of `events` that can happen in a state of `states` leads to a
state of `targets`. -/
def Shared.leadsInto (states targets : List Shared) (events : List Event) : Bool :=
  states.all fun w =>
    events.all fun e =>
      match w.step e with
      | none => true
      | some w1 => decide (w1 ∈ targets)

/-- Thread B returns from `acquire` with item 0 after at most three steps of
its own, all of them possible. -/
def Shared.waiterReturnsSoon (w : Shared) : Bool :=
  (List.range 4).any fun k =>
    decide (w.exec (List.replicate k (Event.run 1)) = some Shared.bothReturned)

/-! ## The packet log

`02_final_project.cpp`.  The member `std::unordered_map<int, Packet>
packet_log` is a list of key/packet entries, as for the router network. -/

/-- The class `Packet` of `02_final_project.cpp`: its three data members. -/
structure Packet where
  id : Int
  payload : String
  timestamp : String
  deriving DecidableEq, Repr

/-- The method `Packet::SetPayload(payload)`:
`this->payload = std::move(payload);`. -/
def Packet.SetPayload (self : Packet) (payload : String) : Packet :=
  { self with payload := payload }

/-- The method `Packet::GetPayload()`. -/
def Packet.GetPayload (self : Packet) : String :=
  self.payload

/-- The call `m.emplace(k, v)`: adds the entry when no entry is stored under
`k`, and does nothing otherwise. -/
def UMap.emplace {β : Type} (m : List (Int × β)) (k : Int) (v : β) : List (Int × β) :=
  match UMap.find m k with
  | some _ => m
  | none => m ++ [(k, v)]

/-- The class `PacketLog`: its data member `packet_log`. -/
structure PacketLog where
  packet_log : List (Int × Packet)
  deriving DecidableEq, Repr

namespace PacketLog

/-- A log to which nothing has been added. -/
def empty : PacketLog :=
  ⟨[]⟩

/-- The method `AddPacket(packet)`:
`packet_log.emplace(packet.GetID(), std::move(packet));`.  The class
`Packet` declares no `GetID`; the method is the parameter `GetID`. -/
def AddPacket (GetID : Packet → Int) (self : PacketLog) (packet : Packet) : PacketLog :=
  ⟨UMap.emplace self.packet_log (GetID packet) packet⟩

/-- The method `UpdatePacket(id, payload)`: `auto it = packet_log.find(id);
if (it != packet_log.end()) { it->second.SetPayload(std::move(payload)); }`.
The packet is changed in place, under the key it is stored at. -/
def UpdatePacket (self : PacketLog) (id : Int) (payload : String) : PacketLog :=
  match UMap.find self.packet_log id with
  | some packet => ⟨UMap.assign self.packet_log id (packet.SetPayload payload)⟩
  | none => self

/-- One call on a log. -/
inductive Call where
  | addPacket (packet : Packet)
  | updatePacket (id : Int) (payload : String)
  deriving DecidableEq, Repr

/-- The log after one more call, with `GetID` returning the member `id`. -/
def call (self : PacketLog) : Call → PacketLog
  | .addPacket packet => self.AddPacket (fun p => p.id) packet
  | .updatePacket id payload => self.UpdatePacket id payload

/-- The log built by a sequence of calls on a new `PacketLog`. -/
def build (calls : List Call) : PacketLog :=
  calls.foldl call empty

/-- Every packet is stored under its own id, and no two entries have the same
key. -/
def WF (self : PacketLog) : Prop :=
  UMap.WF self.packet_log ∧ ∀ e ∈ self.packet_log, e.2.id = e.1

end PacketLog

/-! ## Basic facts -/

theorem MessagePool.acquire_nil : MessagePool.acquire ⟨[]⟩ = .blocks := rfl

theorem MessagePool.acquire_cons (x : Ptr) (rest : List Ptr) :
    MessagePool.acquire ⟨x :: rest⟩ = .returns x ⟨rest⟩ := rfl

theorem PacketPool.getPacket_nil : PacketPool.getPacket ⟨[]⟩ = .blocks := rfl

theorem PacketPool.getPacket_cons (x : Ptr) (rest : List Ptr) :
    PacketPool.getPacket ⟨x :: rest⟩ = .returns x ⟨rest⟩ := rfl

theorem Impl.acquire_on_empty (i : Impl) : i.acquire [] = .blocks := by
  cases i <;> rfl

theorem Impl.acquire_on_front (i : Impl) (x : Ptr) (rest : List Ptr) :
    i.acquire (x :: rest) = .returns x rest := by
  cases i <;> rfl

theorem Impl.release_eq (i : Impl) (q : List Ptr) (x : Ptr) : i.release q x = q ++ [x] := by
  cases i <;> rfl

theorem Heap.afterNew_zero (h : Heap) : h.afterNew 0 = h := by
  cases h; simp [Heap.afterNew]

theorem Heap.new_ok (throws : Nat → Bool) (h : Heap) (hk : throws h.attempts = false) :
    h.new throws = (some h.next, h.afterNew 1) := by
  simp [Heap.new, hk, Heap.afterNew]

theorem Heap.new_throws (throws : Nat → Bool) (h : Heap) (hk : throws h.attempts = true) :
    h.new throws = (none, h.afterFailedNew 0) := by
  cases h; simp_all [Heap.new, Heap.afterNew, Heap.afterFailedNew]

theorem Heap.afterNew_succ (h : Heap) (n : Nat) :
    (h.afterNew 1).afterNew n = h.afterNew (n + 1) := by
  simp only [Heap.afterNew, List.range'_one, List.append_assoc, List.singleton_append]
  congr 1 <;> omega

theorem Heap.afterFailedNew_succ (h : Heap) (n : Nat) :
    (h.afterNew 1).afterFailedNew n = h.afterFailedNew (n + 1) := by
  simp only [Heap.afterFailedNew, Heap.afterNew_succ]
  simp only [Heap.afterNew]
  congr 1; omega

theorem MessagePool.ctorLoop_ok (throws : Nat → Bool) (n : Nat) (pool : List Ptr) (h : Heap)
    (hk : ∀ k, k < n → throws (h.attempts + k) = false) :
    MessagePool.ctorLoop throws n pool h
      = .built ⟨pool ++ List.range' h.next n⟩ (h.afterNew n) := by
  induction n generalizing pool h with
  | zero => simp [MessagePool.ctorLoop, Heap.afterNew_zero]
  | succ n ih =>
    have h0 : throws h.attempts = false := by simpa using hk 0 (Nat.succ_pos n)
    rw [MessagePool.ctorLoop, Heap.new_ok throws h h0]
    simp only
    rw [ih, Heap.afterNew_succ]
    · simp [Queue.push, Heap.afterNew, List.range'_succ]
    · intro k hkn
      have := hk (k + 1) (Nat.succ_lt_succ hkn)
      simpa [Heap.afterNew, Nat.add_assoc, Nat.add_comm 1 k] using this

theorem MessagePool.ctorLoop_throws (throws : Nat → Bool) (n j : Nat) (pool : List Ptr)
    (h : Heap) (hj : j < n) (hk : ∀ k, k < j → throws (h.attempts + k) = false)
    (ht : throws (h.attempts + j) = true) :
    MessagePool.ctorLoop throws n pool h = .threw (h.afterFailedNew j) := by
  induction n generalizing pool h j with
  | zero => omega
  | succ n ih =>
    cases j with
    | zero =>
      rw [MessagePool.ctorLoop, Heap.new_throws throws h (by simpa using ht)]
    | succ j =>
      have h0 : throws h.attempts = false := by simpa using hk 0 (Nat.succ_pos j)
      rw [MessagePool.ctorLoop, Heap.new_ok throws h h0]
      simp only
      rw [ih j _ _ (by omega), Heap.afterFailedNew_succ]
      · intro k hkj
        have := hk (k + 1) (Nat.succ_lt_succ hkj)
        simpa [Heap.afterNew, Nat.add_assoc, Nat.add_comm 1 k] using this
      · simpa [Heap.afterNew, Nat.add_assoc, Nat.add_comm 1 j] using ht

theorem PacketPool.ctorLoop_eq (throws : Nat → Bool) (n : Nat) (pool : List Ptr) (h : Heap) :
    PacketPool.ctorLoop throws n pool h =
      match MessagePool.ctorLoop throws n pool h with
      | .built self h1 => .built ⟨self.pool⟩ h1
      | .threw h1 => .threw h1 := by
  induction n generalizing pool h with
  | zero => rfl
  | succ n ih =>
    rw [PacketPool.ctorLoop, MessagePool.ctorLoop]
    rcases hn : h.new throws with ⟨_ | p, h1⟩
    · rfl
    · simp only [ih]

theorem Impl.ctor_ok (i : Impl) (throws : Nat → Bool) (n : Nat) (h : Heap)
    (hk : ∀ k, k < n → throws (h.attempts + k) = false) :
    i.ctor throws n h = .built (List.range' h.next n) (h.afterNew n) := by
  cases i <;>
    simp [Impl.ctor, MessagePool.ctor, PacketPool.ctor, PacketPool.ctorLoop_eq,
      MessagePool.ctorLoop_ok throws n [] h hk]

theorem Impl.ctor_throws (i : Impl) (throws : Nat → Bool) (n j : Nat) (h : Heap)
    (hj : j < n) (hk : ∀ k, k < j → throws (h.attempts + k) = false)
    (ht : throws (h.attempts + j) = true) :
    i.ctor throws n h = .threw (h.afterFailedNew j) := by
  cases i <;>
    simp [Impl.ctor, MessagePool.ctor, PacketPool.ctor, PacketPool.ctorLoop_eq,
      MessagePool.ctorLoop_throws throws n j [] h hj hk ht]

theorem MessagePool.ctorLoop_built (throws : Nat → Bool) (n : Nat) (pool : List Ptr)
    (h h1 : Heap) (self : MessagePool)
    (hc : MessagePool.ctorLoop throws n pool h = .built self h1) :
    self.pool = pool ++ List.range' h.next n ∧ h1 = h.afterNew n := by
  induction n generalizing pool h with
  | zero =>
    simp only [MessagePool.ctorLoop, Constructed.built.injEq] at hc
    obtain ⟨rfl, rfl⟩ := hc
    simp [Heap.afterNew_zero]
  | succ n ih =>
    rw [MessagePool.ctorLoop] at hc
    cases ht : throws h.attempts with
    | true =>
      rw [Heap.new_throws throws h ht] at hc
      cases hc
    | false =>
      rw [Heap.new_ok throws h ht] at hc
      obtain ⟨hp, hh⟩ := ih _ _ hc
      rw [Heap.afterNew_succ] at hh
      refine ⟨?_, hh⟩
      rw [hp]
      simp [Queue.push, Heap.afterNew, List.range'_succ]

theorem Impl.ctor_built (i : Impl) (throws : Nat → Bool) (n : Nat) (h h1 : Heap)
    (q : List Ptr) (hc : i.ctor throws n h = .built q h1) :
    q = List.range' h.next n ∧ h1 = h.afterNew n := by
  cases i
  · simp only [Impl.ctor, MessagePool.ctor] at hc
    split at hc
    · next self h2 heq =>
      have := MessagePool.ctorLoop_built throws n [] h h2 self heq
      simp only [Constructed.built.injEq] at hc
      obtain ⟨rfl, rfl⟩ := hc
      simpa using this
    · cases hc
  · simp only [Impl.ctor, PacketPool.ctor, PacketPool.ctorLoop_eq] at hc
    split at hc
    · next self h2 heq =>
      split at heq
      · next self1 h3 heq1 =>
        have := MessagePool.ctorLoop_built throws n [] h h3 self1 heq1
        simp only [Constructed.built.injEq] at hc heq
        obtain ⟨rfl, rfl⟩ := hc
        obtain ⟨rfl, rfl⟩ := heq
        simpa using this
      · cases heq
    · cases hc

/-! ## Sequences of operations -/

theorem Sys.step_acquire_nil (i : Impl) (l : List Ptr) :
    Sys.step i ⟨[], l⟩ .acquire = none := by
  simp [Sys.step, Impl.acquire_on_empty]

theorem Sys.step_acquire_cons (i : Impl) (x : Ptr) (rest l : List Ptr) :
    Sys.step i ⟨x :: rest, l⟩ .acquire = some ⟨rest, x :: l⟩ := by
  simp [Sys.step, Impl.acquire_on_front]

theorem Sys.step_release (i : Impl) (s : Sys) (x : Ptr) :
    Sys.step i s (.release x) = some ⟨s.pool ++ [x], s.leased.erase x⟩ := by
  simp [Sys.step, Impl.release_eq]

/-- An operation that respects the contract of the callers moves an item
between the queue and the leases and does nothing else. -/
theorem Sys.step_perm (i : Impl) (s s1 : Sys) (op : Op) (ha : s.allowed op = true)
    (hs : s.step i op = some s1) :
    (s1.pool ++ s1.leased).Perm (s.pool ++ s.leased) := by
  obtain ⟨pool, leased⟩ := s
  cases op with
  | acquire =>
    cases pool with
    | nil => simp [Sys.step_acquire_nil] at hs
    | cons x rest =>
      rw [Sys.step_acquire_cons] at hs
      cases hs
      exact List.perm_middle
  | release x =>
    rw [Sys.step_release] at hs
    cases hs
    have hx : x ∈ leased := by simpa [Sys.allowed] using ha
    have h1 : (x :: leased.erase x).Perm leased := (List.perm_cons_erase hx).symm
    have h2 : pool ++ [x] ++ leased.erase x = pool ++ (x :: leased.erase x) := by simp
    rw [h2]
    exact List.Perm.append_left pool h1

theorem Sys.run_perm (i : Impl) (ops : List Op) (s s1 : Sys)
    (hl : Sys.legal i s ops = true) (hr : Sys.run i s ops = some s1) :
    (s1.pool ++ s1.leased).Perm (s.pool ++ s.leased) := by
  induction ops generalizing s with
  | nil =>
    simp only [Sys.run, Option.some.injEq] at hr
    subst hr
    exact List.Perm.refl _
  | cons op ops ih =>
    simp only [Sys.run] at hr
    simp only [Sys.legal, Bool.and_eq_true] at hl
    cases hstep : s.step i op with
    | none => simp [hstep] at hr
    | some s2 =>
      simp only [hstep] at hr hl
      exact (ih s2 hl.2 hr).trans (Sys.step_perm i s s2 op hl.1 hstep)

theorem Sys.legal_take (i : Impl) (ops : List Op) (s : Sys) (k : Nat)
    (hl : Sys.legal i s ops = true) : Sys.legal i s (ops.take k) = true := by
  induction ops generalizing s k with
  | nil => simp [Sys.legal]
  | cons op ops ih =>
    cases k with
    | zero => simp [Sys.legal]
    | succ k =>
      simp only [Sys.legal, Bool.and_eq_true, List.take_succ_cons] at hl ⊢
      refine ⟨hl.1, ?_⟩
      cases hstep : s.step i op with
      | none => rfl
      | some s2 =>
        simp only [hstep] at hl ⊢
        exact ih s2 k hl.2

/-! ## The pool as a container -/

/-- C1 (capacity invariant).  Take a pool constructed with capacity `N`, by
either class, and a sequence of acquire/release operations in which every
release gives back an item that is leased at that moment.  After every
operation of the sequence (after its first `k` operations, for every `k`) the
number of items in the available queue plus the number of leased items is
`N`. -/
theorem capacity_invariant (i : Impl) (throws : Nat → Bool) (N : Nat) (h h1 : Heap)
    (q : List Ptr) (hc : i.ctor throws N h = .built q h1)
    (ops : List Op) (hl : Sys.legal i (Sys.ofPool q) ops = true)
    (k : Nat) (s : Sys) (hr : Sys.run i (Sys.ofPool q) (ops.take k) = some s) :
    s.pool.length + s.leased.length = N := by
  have hq : q.length = N := by
    rw [(Impl.ctor_built i throws N h h1 q hc).1, List.length_range']
  have hp := (Sys.run_perm i (ops.take k) (Sys.ofPool q) s
    (Sys.legal_take i ops (Sys.ofPool q) k hl) hr).length_eq
  simpa [Sys.ofPool, hq] using hp

/-- Witness of C1: a pool of three messages; acquire, acquire, release of the
first item, then (not yet run) one more acquire. -/
theorem capacity_invariant_witness :
    Impl.ctor .messagePool (fun _ => false) 3 Heap.fresh
        = .built [0, 1, 2] (Heap.fresh.afterNew 3) ∧
      Sys.legal .messagePool (Sys.ofPool [0, 1, 2])
        [.acquire, .acquire, .release 0, .acquire] = true ∧
      Sys.run .messagePool (Sys.ofPool [0, 1, 2])
        (List.take 3 [.acquire, .acquire, .release 0, .acquire]) = some ⟨[2, 0], [1]⟩ ∧
      (Sys.mk [2, 0] [1]).pool.length + (Sys.mk [2, 0] [1]).leased.length = 3 :=
  ⟨by decide, by decide, by decide,
    capacity_invariant .messagePool (fun _ => false) 3 Heap.fresh (Heap.fresh.afterNew 3)
      [0, 1, 2] (by decide) [.acquire, .acquire, .release 0, .acquire] (by decide)
      3 ⟨[2, 0], [1]⟩ (by decide)⟩

/-- C2 (no double issue).  Take a pool, of either class, whose queue holds
distinct items, and a sequence of acquire/release operations in which every
release gives back an item that is leased at that moment.  In the state
reached no item is twice in the available queue, no item is leased twice, no
item is both available and leased, and an item that `acquire` returns in that
state is neither out on lease nor left in the queue. -/
theorem no_double_issue (i : Impl) (q : List Ptr) (hq : q.Nodup)
    (ops : List Op) (hl : Sys.legal i (Sys.ofPool q) ops = true)
    (s : Sys) (hr : Sys.run i (Sys.ofPool q) ops = some s) :
    s.pool.Nodup ∧ s.leased.Nodup ∧ (∀ x, x ∈ s.pool → x ∉ s.leased) ∧
      ∀ x rest, i.acquire s.pool = .returns x rest → x ∉ s.leased ∧ x ∉ rest := by
  have hp := Sys.run_perm i ops (Sys.ofPool q) s hl hr
  have hn : (s.pool ++ s.leased).Nodup := by
    rw [hp.nodup_iff]
    simpa [Sys.ofPool] using hq
  rw [List.nodup_append] at hn
  obtain ⟨h1, h2, h3⟩ := hn
  refine ⟨h1, h2, fun x hx hx1 => h3 hx hx1, ?_⟩
  intro x rest ha
  cases hpool : s.pool with
  | nil => rw [hpool, Impl.acquire_on_empty] at ha; cases ha
  | cons y r =>
    rw [hpool, Impl.acquire_on_front] at ha
    cases ha
    rw [hpool] at h1 h3
    exact ⟨fun hx1 => h3 (List.mem_cons_self _ _) hx1, (List.nodup_cons.mp h1).1⟩

/-- Witness of C2: two packets; both are taken, the first comes back and is
taken again. -/
theorem no_double_issue_witness :
    [4, 7].Nodup ∧
      Sys.legal .packetPool (Sys.ofPool [4, 7]) [.acquire, .acquire, .release 4] = true ∧
      Sys.run .packetPool (Sys.ofPool [4, 7]) [.acquire, .acquire, .release 4]
        = some ⟨[4], [7]⟩ ∧
      ((Sys.mk [4] [7]).pool.Nodup ∧ (Sys.mk [4] [7]).leased.Nodup ∧
        (∀ x, x ∈ (Sys.mk [4] [7]).pool → x ∉ (Sys.mk [4] [7]).leased) ∧
        ∀ x rest, Impl.acquire .packetPool (Sys.mk [4] [7]).pool = .returns x rest →
          x ∉ (Sys.mk [4] [7]).leased ∧ x ∉ rest) :=
  ⟨by decide, by decide, by decide,
    no_double_issue .packetPool [4, 7] (by decide) [.acquire, .acquire, .release 4]
      (by decide) ⟨[4], [7]⟩ (by decide)⟩

/-- C3 (acquire takes the front).  On a non-empty queue `acquire` (and
`getPacket`) returns the item at the front, the oldest one, and leaves the
queue without its first element: one item fewer, the others in their order. -/
theorem acquire_takes_front (q : List Ptr) (hq : q ≠ []) :
    MessagePool.acquire ⟨q⟩ = .returns (q.head hq) ⟨q.tail⟩ ∧
      PacketPool.getPacket ⟨q⟩ = .returns (q.head hq) ⟨q.tail⟩ ∧
      q = q.head hq :: q.tail ∧ q.tail.length + 1 = q.length := by
  cases q with
  | nil => exact absurd rfl hq
  | cons x rest => exact ⟨rfl, rfl, rfl, rfl⟩

/-- Witness of C3: the queue 5, 6, 7. -/
theorem acquire_takes_front_witness :
    MessagePool.acquire ⟨[5, 6, 7]⟩ = .returns 5 ⟨[6, 7]⟩ ∧
      PacketPool.getPacket ⟨[5, 6, 7]⟩ = .returns 5 ⟨[6, 7]⟩ :=
  ⟨(acquire_takes_front [5, 6, 7] (by decide)).1,
    (acquire_takes_front [5, 6, 7] (by decide)).2.1⟩

/-- C4 (release pushes at the back).  `release(item)` (and `returnPacket`)
leaves the items already queued in place and in order, puts the item right
behind them, and so makes the queue one item longer. -/
theorem release_pushes_back (q : List Ptr) (x : Ptr) :
    ((MessagePool.release ⟨q⟩ x).pool.take q.length = q ∧
        (MessagePool.release ⟨q⟩ x).pool.drop q.length = [x] ∧
        (MessagePool.release ⟨q⟩ x).pool.length = q.length + 1) ∧
      ((PacketPool.returnPacket ⟨q⟩ x).pool.take q.length = q ∧
        (PacketPool.returnPacket ⟨q⟩ x).pool.drop q.length = [x] ∧
        (PacketPool.returnPacket ⟨q⟩ x).pool.length = q.length + 1) := by
  simp [MessagePool.release, PacketPool.returnPacket, Queue.push]

/-- C5 (construction).  When none of the `N` constructions throws, the
constructor of either class returns a pool; `N` constructions have been
performed and nothing destroyed; the queue holds `N` items, which are exactly
the objects constructed, all distinct; nothing is out on lease. -/
theorem ctor_builds_full_pool (i : Impl) (throws : Nat → Bool) (N : Nat) (h : Heap)
    (hk : ∀ k, k < N → throws (h.attempts + k) = false) :
    ∃ q h1, i.ctor throws N h = .built q h1 ∧
      h1.constructions = h.constructions + N ∧ h1.attempts = h.attempts + N ∧
      h1.destroyed = h.destroyed ∧ h1.live = h.live ++ q ∧
      q.length = N ∧ q.Nodup ∧
      (Sys.ofPool q).pool.length = N ∧ (Sys.ofPool q).leased = [] := by
  refine ⟨List.range' h.next N, h.afterNew N, Impl.ctor_ok i throws N h hk, ?_⟩
  simp [Heap.afterNew, Sys.ofPool, List.nodup_range']

/-- Witness of C5: `MessagePool pool(5)` as in `main`, on a fresh free store. -/
theorem ctor_builds_full_pool_witness :
    ∃ q h1, Impl.ctor .messagePool (fun _ => false) 5 Heap.fresh = .built q h1 ∧
      h1.constructions = Heap.fresh.constructions + 5 ∧
      h1.attempts = Heap.fresh.attempts + 5 ∧
      h1.destroyed = Heap.fresh.destroyed ∧ h1.live = Heap.fresh.live ++ q ∧
      q.length = 5 ∧ q.Nodup ∧
      (Sys.ofPool q).pool.length = 5 ∧ (Sys.ofPool q).leased = [] :=
  ctor_builds_full_pool .messagePool (fun _ => false) 5 Heap.fresh (fun _ _ => rfl)

/-! ## Threads: the invariant -/

theorem Shared.inv_start (q : List Ptr) (n : Nat) : (Shared.start q n).Inv := by
  refine ⟨rfl, ?_, ?_⟩
  · intro t pc ht hc
    simp only [Shared.start, List.getElem?_replicate] at ht
    split at ht
    · cases ht; cases hc
    · cases ht
  · intro t ht
    simp only [Shared.start, List.getElem?_replicate] at ht
    split at ht <;> cases ht

/-- A thread outside the critical sections moves to a place outside the
critical sections. -/
theorem Shared.inv_set_outside (w : Shared) (t : Nat) (pc0 : Pc) (hinv : w.Inv)
    (h0 : pc0.inCritical = false) :
    Shared.Inv { w with pcs := w.pcs.set t pc0 } := by
  obtain ⟨hu, hm, hp⟩ := hinv
  refine ⟨hu, ?_, ?_⟩
  · intro t1 pc ht hc
    simp only [List.getElem?_set] at ht
    split at ht
    · split at ht
      · cases ht; rw [h0] at hc; cases hc
      · cases ht
    · exact hm t1 pc ht hc
  · intro t1 ht
    simp only [List.getElem?_set] at ht
    split at ht
    · split at ht
      · cases ht; cases h0
      · cases ht
    · exact hp t1 ht

/-- A step of the thread that holds `m`, or of any thread while `m` is free. -/
theorem Shared.inv_of_owner_step (w w1 : Shared) (t : Nat) (hinv : w.Inv)
    (hu : w1.undefined = false)
    (hlock : w.m = none ∨ w.m = some t)
    (hothers : ∀ t1 pc, t1 ≠ t → w1.pcs[t1]? = some pc → pc.inCritical = true →
      w.pcs[t1]? = some pc)
    (hself : ∀ pc, w1.pcs[t]? = some pc → pc.inCritical = true →
      w1.m = some t ∧ (pc = Pc.acqPop → w1.pool ≠ [])) :
    w1.Inv := by
  obtain ⟨_, hm, _⟩ := hinv
  have key : ∀ t1 pc, w1.pcs[t1]? = some pc → pc.inCritical = true → t1 = t := by
    intro t1 pc ht hc
    by_contra hne
    have := hm t1 pc (hothers t1 pc hne ht hc) hc
    rcases hlock with h | h
    · rw [h] at this; cases this
    · rw [h] at this; exact hne (Option.some.inj this).symm
  refine ⟨hu, ?_, ?_⟩
  · intro t1 pc ht hc
    obtain rfl := key t1 pc ht hc
    exact (hself pc ht hc).1
  · intro t1 ht
    obtain rfl := key t1 _ ht rfl
    exact (hself _ ht rfl).2 rfl

theorem Shared.inv_lock (w w1 : Shared) (t : Nat) (pc0 : Pc) (hinv : w.Inv)
    (h0 : pc0 ≠ Pc.acqPop) (hs : w.lock t pc0 = some w1) : w1.Inv := by
  unfold Shared.lock at hs
  split at hs
  · next hm =>
    cases hs
    refine Shared.inv_of_owner_step w _ t hinv hinv.1 (Or.inl hm) ?_ ?_
    · intro t1 pc hne ht _
      simpa [List.getElem?_set, Ne.symm hne] using ht
    · intro pc ht _
      refine ⟨rfl, fun hpop => ?_⟩
      subst hpop
      simp only [List.getElem?_set, if_true] at ht
      split at ht
      · exact absurd (Option.some.inj ht) h0
      · cases ht
  · cases hs

theorem Shared.inv_step (w w1 : Shared) (e : Event) (hinv : w.Inv)
    (hs : w.step e = some w1) : w1.Inv := by
  cases e with
  | callAcquire t =>
    simp only [Shared.step] at hs
    split at hs
    · cases hs; exact Shared.inv_set_outside w t _ hinv rfl
    · cases hs
  | callRelease t x =>
    simp only [Shared.step] at hs
    split at hs
    · cases hs; exact Shared.inv_set_outside w t _ hinv rfl
    · cases hs
  | spurious t =>
    simp only [Shared.step] at hs
    split at hs
    · cases hs; exact Shared.inv_set_outside w t _ hinv rfl
    · cases hs
  | notify t u =>
    simp only [Shared.step] at hs
    split at hs
    · next ht hu =>
      cases hs
      refine Shared.inv_of_owner_step w _ t hinv hinv.1 (Or.inr (hinv.2.1 t _ ht rfl)) ?_ ?_
      · intro t1 pc hne h1 hc
        simp only [List.getElem?_set, Ne.symm hne, if_false, List.length_set] at h1
        split at h1
        · split at h1
          · cases h1; cases hc
          · cases h1
        · exact h1
      · intro pc h1 hc
        simp only [List.getElem?_set, if_true, List.length_set] at h1
        split at h1
        · cases h1; cases hc
        · cases h1
    · cases hs
  | run t =>
    simp only [Shared.step] at hs
    split at hs
    · exact Shared.inv_lock w w1 t _ hinv (by decide) hs
    · exact Shared.inv_lock w w1 t _ hinv (by decide) hs
    · next ht =>
      have hm := hinv.2.1 t _ ht rfl
      split at hs
      · cases hs
        refine Shared.inv_of_owner_step w _ t hinv hinv.1 (Or.inr hm) ?_ ?_
        · intro t1 pc hne h1 _
          simpa [List.getElem?_set, Ne.symm hne] using h1
        · intro pc h1 hc
          simp only [List.getElem?_set, if_true] at h1
          split at h1
          · cases h1; cases hc
          · cases h1
      · next hne =>
        cases hs
        refine Shared.inv_of_owner_step w _ t hinv hinv.1 (Or.inr hm) ?_ ?_
        · intro t1 pc hne h1 _
          simpa [List.getElem?_set, Ne.symm hne] using h1
        · intro pc h1 hc
          refine ⟨hm, fun _ hnil => ?_⟩
          simp only at hnil
          rw [hnil] at hne
          exact hne rfl
    · next ht =>
      have hm := hinv.2.1 t _ ht rfl
      have hp := hinv.2.2 t ht
      split at hs
      · cases hs
        refine Shared.inv_of_owner_step w _ t hinv hinv.1 (Or.inr hm) ?_ ?_
        · intro t1 pc hne h1 _
          simpa [List.getElem?_set, Ne.symm hne] using h1
        · intro pc h1 hc
          simp only [List.getElem?_set, if_true] at h1
          split at h1
          · cases h1; cases hc
          · cases h1
      · next hx =>
        exfalso
        cases hpool : w.pool with
        | nil => exact hp hpool
        | cons x rest => exact hx x rest (by rw [hpool]; rfl) (by rw [hpool]; rfl)
    · exact Shared.inv_lock w w1 t _ hinv (by simp) hs
    · next x ht =>
      have hm := hinv.2.1 t _ ht rfl
      cases hs
      refine Shared.inv_of_owner_step w _ t hinv hinv.1 (Or.inr hm) ?_ ?_
      · intro t1 pc hne h1 _
        simpa [List.getElem?_set, Ne.symm hne] using h1
      · intro pc h1 hc
        refine ⟨hm, fun hpop => ?_⟩
        subst hpop
        simp only [List.getElem?_set, if_true] at h1
        split at h1 <;> cases h1
    · next ht =>
      have hm := hinv.2.1 t _ ht rfl
      split at hs
      · cases hs
      · cases hs
        refine Shared.inv_of_owner_step w _ t hinv hinv.1 (Or.inr hm) ?_ ?_
        · intro t1 pc hne h1 _
          simpa [List.getElem?_set, Ne.symm hne] using h1
        · intro pc h1 hc
          simp only [List.getElem?_set, if_true] at h1
          split at h1
          · cases h1; cases hc
          · cases h1
    · cases hs

theorem Shared.inv_exec (es : List Event) (w w1 : Shared) (hinv : w.Inv)
    (hr : w.exec es = some w1) : w1.Inv := by
  induction es generalizing w with
  | nil =>
    simp only [Shared.exec, Option.some.injEq] at hr
    exact hr ▸ hinv
  | cons e es ih =>
    simp only [Shared.exec] at hr
    cases hstep : w.step e with
    | none => simp [hstep] at hr
    | some w2 =>
      simp only [hstep] at hr
      exact ih w2 (Shared.inv_step w w2 e hinv hstep) hr

theorem Shared.step_run_acqPop (w : Shared) (t : Nat) (x : Ptr) (rest : List Ptr)
    (ht : w.pcs[t]? = some Pc.acqPop) (hp : w.pool = x :: rest) :
    w.step (.run t) = some { w with
      pool := rest
      m := none
      pcs := w.pcs.set t .idle
      returned := w.returned ++ [(t, x)] } := by
  simp [Shared.step, ht, hp, Queue.front, Queue.pop]

theorem Shared.step_run_acqTest (w : Shared) (t : Nat) (ht : w.pcs[t]? = some Pc.acqTest) :
    w.step (.run t) =
      if w.pool = [] then some { w with m := none, pcs := w.pcs.set t .acqWait }
      else some { w with pcs := w.pcs.set t .acqPop } := by
  cases hp : w.pool <;> simp [Shared.step, ht, hp, Queue.empty]

theorem Shared.step_run_acqWoken (w : Shared) (t : Nat) (ht : w.pcs[t]? = some Pc.acqWoken) :
    w.step (.run t) = w.lock t .acqTest := by
  simp [Shared.step, ht]

theorem Shared.getElem?_set_self_of_some (pcs : List Pc) (t : Nat) (pc pc0 : Pc)
    (ht : pcs[t]? = some pc) : (pcs.set t pc0)[t]? = some pc0 := by
  have hlt : t < pcs.length := by
    by_contra hge
    rw [List.getElem?_eq_none (Nat.le_of_not_lt hge)] at ht
    cases ht
  simp [List.getElem?_set, hlt]

/-- C6 (the wait is predicate-checked).  Start from a pool holding any queue
and any number of threads outside the methods, and let the threads run under
any schedule, spurious wakeups included.  In the state reached no undefined
behaviour has happened; a thread that stands at `pool.front(); pool.pop()`
holds the mutex and finds the queue non-empty, so its next step takes the
front item and returns it; a thread woken inside `cv.wait`, by a notification
or spuriously, goes to the test of the queue and nowhere else; and a thread at
the test goes back to waiting when the queue is empty and on to the pop only
when it is not. -/
theorem wait_rechecks_queue (q : List Ptr) (n : Nat) (es : List Event) (w : Shared)
    (hr : (Shared.start q n).exec es = some w) :
    w.undefined = false ∧
      (∀ t : Nat, w.pcs[t]? = some Pc.acqPop →
        w.pool ≠ [] ∧ w.m = some t ∧
          ∃ x rest w1, w.pool = x :: rest ∧ w.step (.run t) = some w1 ∧
            w1.undefined = false ∧ w1.pool = rest ∧ w1.returned = w.returned ++ [(t, x)]) ∧
      (∀ (t : Nat) (w1 : Shared), w.pcs[t]? = some Pc.acqWoken →
        w.step (.run t) = some w1 → w1.pcs[t]? = some Pc.acqTest) ∧
      (∀ (t : Nat) (w1 : Shared), w.pcs[t]? = some Pc.acqTest →
        w.step (.run t) = some w1 →
          w1.pcs[t]? = some (if w.pool = [] then Pc.acqWait else Pc.acqPop)) := by
  have hinv := Shared.inv_exec es _ w (Shared.inv_start q n) hr
  refine ⟨hinv.1, ?_, ?_, ?_⟩
  · intro t ht
    have hp := hinv.2.2 t ht
    refine ⟨hp, hinv.2.1 t _ ht rfl, ?_⟩
    cases hpool : w.pool with
    | nil => exact absurd hpool hp
    | cons x rest =>
      exact ⟨x, rest, _, rfl, Shared.step_run_acqPop w t x rest ht hpool, hinv.1, rfl, rfl⟩
  · intro t w1 ht hs
    rw [Shared.step_run_acqWoken w t ht] at hs
    unfold Shared.lock at hs
    split at hs
    · cases hs
      exact Shared.getElem?_set_self_of_some w.pcs t _ _ ht
    · cases hs
  · intro t w1 ht hs
    rw [Shared.step_run_acqTest w t ht] at hs
    split at hs
    · next hp =>
      cases hs
      rw [if_pos hp]
      exact Shared.getElem?_set_self_of_some w.pcs t _ _ ht
    · next hp =>
      cases hs
      rw [if_neg hp]
      exact Shared.getElem?_set_self_of_some w.pcs t _ _ ht

/-- Witness of C6: one item, three threads.  Thread 0 takes the item; threads
1 and 2 find the queue empty and wait; thread 1 is woken spuriously, tests
again and waits again; thread 0 gives the item back and notifies thread 1;
thread 2, woken spuriously, gets the mutex first and reaches the pop with the
item in the queue. -/
theorem wait_rechecks_queue_witness :
    (Shared.start [9] 3).exec
        [.callAcquire 0, .run 0, .run 0, .run 0,
          .callAcquire 1, .run 1, .run 1,
          .callAcquire 2, .run 2, .run 2,
          .spurious 1, .run 1, .run 1,
          .callRelease 0 9, .run 0, .run 0, .notify 0 1,
          .spurious 2, .run 2, .run 2]
        = some { pool := [9], m := some 2, pcs := [.idle, .acqWoken, .acqPop],
                 returned := [(0, 9)], undefined := false } ∧
      (Shared.mk [9] (some 2) [.idle, .acqWoken, .acqPop] [(0, 9)] false).undefined = false ∧
      ∀ t : Nat,
        (Shared.mk [9] (some 2) [.idle, .acqWoken, .acqPop] [(0, 9)] false).pcs[t]?
            = some Pc.acqPop →
          (Shared.mk [9] (some 2) [.idle, .acqWoken, .acqPop] [(0, 9)] false).pool ≠ [] :=
  ⟨by decide,
    (wait_rechecks_queue [9] 3
        [.callAcquire 0, .run 0, .run 0, .run 0,
          .callAcquire 1, .run 1, .run 1,
          .callAcquire 2, .run 2, .run 2,
          .spurious 1, .run 1, .run 1,
          .callRelease 0 9, .run 0, .run 0, .notify 0 1,
          .spurious 2, .run 2, .run 2] _ (by decide)).1,
    fun t ht => ((wait_rechecks_queue [9] 3
        [.callAcquire 0, .run 0, .run 0, .run 0,
          .callAcquire 1, .run 1, .run 1,
          .callAcquire 2, .run 2, .run 2,
          .spurious 1, .run 1, .run 1,
          .callRelease 0 9, .run 0, .run 0, .notify 0 1,
          .spurious 2, .run 2, .run 2] _ (by decide)).2.1 t ht).1⟩

/-! ## Threads: schedules without a release -/

theorem Shared.noRelease_start (q : List Ptr) (n : Nat) :
    Shared.NoRelease q (Shared.start q n) := by
  refine ⟨?_, rfl⟩
  intro t pc ht
  simp only [Shared.start, List.getElem?_replicate] at ht
  split at ht
  · cases ht; rfl
  · cases ht

theorem Shared.noRelease_set (q : List Ptr) (w w1 : Shared) (t : Nat) (pc0 : Pc)
    (hk : Shared.NoRelease q w) (h0 : pc0.inRelease = false)
    (hpcs : w1.pcs = w.pcs.set t pc0)
    (hq : w1.returned.map Prod.snd ++ w1.pool = w.returned.map Prod.snd ++ w.pool) :
    Shared.NoRelease q w1 := by
  refine ⟨?_, hq.trans hk.2⟩
  intro t1 pc ht
  rw [hpcs, List.getElem?_set] at ht
  split at ht
  · split at ht
    · cases ht; exact h0
    · cases ht
  · exact hk.1 t1 pc ht

theorem Shared.noRelease_lock (q : List Ptr) (w w1 : Shared) (t : Nat) (pc0 : Pc)
    (hk : Shared.NoRelease q w) (h0 : pc0.inRelease = false)
    (hs : w.lock t pc0 = some w1) : Shared.NoRelease q w1 := by
  unfold Shared.lock at hs
  split at hs
  · cases hs
    exact Shared.noRelease_set q w _ t pc0 hk h0 rfl rfl
  · cases hs

theorem Shared.noRelease_step (q : List Ptr) (w w1 : Shared) (e : Event)
    (hk : Shared.NoRelease q w) (he : e.isCallRelease = false)
    (hs : w.step e = some w1) : Shared.NoRelease q w1 := by
  cases e with
  | callAcquire t =>
    simp only [Shared.step] at hs
    split at hs
    · cases hs; exact Shared.noRelease_set q w _ t .acqLock hk rfl rfl rfl
    · cases hs
  | callRelease t x => cases he
  | spurious t =>
    simp only [Shared.step] at hs
    split at hs
    · cases hs; exact Shared.noRelease_set q w _ t .acqWoken hk rfl rfl rfl
    · cases hs
  | notify t u =>
    simp only [Shared.step] at hs
    split at hs
    · next ht _ => cases hk.1 t _ ht
    · cases hs
  | run t =>
    simp only [Shared.step] at hs
    split at hs
    · exact Shared.noRelease_lock q w w1 t .acqTest hk rfl hs
    · exact Shared.noRelease_lock q w w1 t .acqTest hk rfl hs
    · split at hs
      · cases hs; exact Shared.noRelease_set q w _ t .acqWait hk rfl rfl rfl
      · cases hs; exact Shared.noRelease_set q w _ t .acqPop hk rfl rfl rfl
    · split at hs
      · next x rest hf hp =>
        cases hs
        refine Shared.noRelease_set q w _ t .idle hk rfl rfl ?_
        cases hpool : w.pool with
        | nil => rw [hpool] at hf; cases hf
        | cons y r =>
          rw [hpool] at hf hp
          cases hf; cases hp
          simp
      · cases hs; exact ⟨hk.1, hk.2⟩
    · next x ht => cases hk.1 t _ ht
    · next x ht => cases hk.1 t _ ht
    · next ht => cases hk.1 t _ ht
    · cases hs

theorem Shared.noRelease_exec (q : List Ptr) (es : List Event) (w w1 : Shared)
    (hk : Shared.NoRelease q w) (he : es.all (fun e => !e.isCallRelease) = true)
    (hr : w.exec es = some w1) : Shared.NoRelease q w1 := by
  induction es generalizing w with
  | nil =>
    simp only [Shared.exec, Option.some.injEq] at hr
    exact hr ▸ hk
  | cons e es ih =>
    simp only [Shared.exec] at hr
    simp only [List.all_cons, Bool.and_eq_true, Bool.not_eq_true'] at he
    cases hstep : w.step e with
    | none => simp [hstep] at hr
    | some w2 =>
      simp only [hstep] at hr
      exact ih w2 (Shared.noRelease_step q w w2 e hk he.1 hstep) he.2 hr

/-! ## Exhaustion -/

theorem Sys.run_acquires (i : Impl) (q l : List Ptr) :
    Sys.run i ⟨q, l⟩ (List.replicate q.length .acquire) = some ⟨[], q.reverse ++ l⟩ := by
  induction q generalizing l with
  | nil => rfl
  | cons x rest ih =>
    simp only [List.length_cons, List.replicate_succ, Sys.run, Sys.step_acquire_cons]
    rw [ih]
    simp

theorem Sys.run_append (i : Impl) (a b : List Op) (s : Sys) :
    Sys.run i s (a ++ b) = (Sys.run i s a).bind fun s1 => Sys.run i s1 b := by
  induction a generalizing s with
  | nil => rfl
  | cons op a ih =>
    simp only [List.cons_append, Sys.run]
    cases s.step i op with
    | none => rfl
    | some s1 => exact ih s1

theorem Impl.acquire_blocks_iff (i : Impl) (q : List Ptr) : i.acquire q = .blocks ↔ q = [] := by
  cases q with
  | nil => simp [Impl.acquire_on_empty]
  | cons x rest => simp [Impl.acquire_on_front]

/-- C7 (exhaustion blocks).  On a pool constructed with capacity `N`, by
either class: `N` acquires in a row all return, leaving the queue empty and
all `N` items on lease; any longer row of acquires does not complete: the
acquire after the `N`-th stays blocked as long as nothing is released; and
`acquire` blocks exactly when the queue is empty.  For threads: under every
schedule in which no thread calls `release`, the number of calls of `acquire`
that have returned plus the length of the queue is `N`, so at most `N` calls
return, and once `N` have returned the queue is empty. -/
theorem exhaustion_blocks (i : Impl) (throws : Nat → Bool) (N : Nat) (h h1 : Heap)
    (q : List Ptr) (hc : i.ctor throws N h = .built q h1) :
    Sys.run i (Sys.ofPool q) (List.replicate N .acquire) = some ⟨[], q.reverse⟩ ∧
      (∀ k, Sys.run i (Sys.ofPool q) (List.replicate (N + (k + 1)) .acquire) = none) ∧
      (∀ q1 : List Ptr, i.acquire q1 = .blocks ↔ q1 = []) ∧
      ∀ (n : Nat) (es : List Event) (w : Shared),
        es.all (fun e => !e.isCallRelease) = true → (Shared.start q n).exec es = some w →
          w.returned.length + w.pool.length = N ∧ w.returned.length ≤ N ∧
            (w.returned.length = N → w.pool = []) := by
  have hq : q.length = N := by
    rw [(Impl.ctor_built i throws N h h1 q hc).1, List.length_range']
  have hrun : Sys.run i (Sys.ofPool q) (List.replicate N .acquire) = some ⟨[], q.reverse⟩ := by
    have := Sys.run_acquires i q []
    rw [hq] at this
    simpa [Sys.ofPool] using this
  refine ⟨hrun, ?_, Impl.acquire_blocks_iff i, ?_⟩
  · intro k
    rw [List.replicate_add, Sys.run_append, hrun]
    simp [List.replicate_succ, Sys.run, Sys.step_acquire_nil]
  · intro n es w he hr
    have hk := Shared.noRelease_exec q es _ w (Shared.noRelease_start q n) he hr
    have hlen : w.returned.length + w.pool.length = N := by
      have := congrArg List.length hk.2
      simpa [hq] using this
    refine ⟨hlen, by omega, fun hN => ?_⟩
    apply List.eq_nil_of_length_eq_zero
    omega

/-- Witness of C7: a pool of two messages and three acquirers.  In a row, two
acquires return and the third does not.  As threads: all three call
`acquire`; threads 2 and 0 get the two items, thread 1 finds the queue empty
and waits. -/
theorem exhaustion_blocks_witness :
    Impl.ctor .messagePool (fun _ => false) 2 Heap.fresh
        = .built [0, 1] (Heap.fresh.afterNew 2) ∧
      Sys.run .messagePool (Sys.ofPool [0, 1]) (List.replicate 2 .acquire)
        = some ⟨[], [1, 0]⟩ ∧
      Sys.run .messagePool (Sys.ofPool [0, 1]) (List.replicate (2 + (0 + 1)) .acquire) = none ∧
      (Shared.start [0, 1] 3).exec
          [.callAcquire 0, .callAcquire 1, .callAcquire 2, .run 2, .run 2, .run 2,
            .run 0, .run 0, .run 0, .run 1, .run 1]
        = some { pool := [], m := none, pcs := [.idle, .acqWait, .idle],
                 returned := [(2, 0), (0, 1)], undefined := false } ∧
      (Shared.mk [] none [.idle, .acqWait, .idle] [(2, 0), (0, 1)] false).returned.length
        + (Shared.mk [] none [.idle, .acqWait, .idle] [(2, 0), (0, 1)] false).pool.length = 2 :=
  ⟨by decide,
    (exhaustion_blocks .messagePool (fun _ => false) 2 Heap.fresh (Heap.fresh.afterNew 2)
      [0, 1] (by decide)).1,
    (exhaustion_blocks .messagePool (fun _ => false) 2 Heap.fresh (Heap.fresh.afterNew 2)
      [0, 1] (by decide)).2.1 0,
    by decide,
    ((exhaustion_blocks .messagePool (fun _ => false) 2 Heap.fresh (Heap.fresh.afterNew 2)
      [0, 1] (by decide)).2.2.2 3
        [.callAcquire 0, .callAcquire 1, .callAcquire 2, .run 2, .run 2, .run 2,
          .run 0, .run 0, .run 0, .run 1, .run 1] _ (by decide) (by decide)).1⟩

/-- C8 (a release on an exhausted pool serves one acquire).  On an empty
queue, after `release(x)` the next `acquire` returns exactly `x` and leaves
the queue empty again, so that a second `acquire` blocks: one release lets
one acquire complete, not two.  The same for `returnPacket` and
`getPacket`. -/
theorem release_serves_one_acquire (i : Impl) (x : Ptr) (leased : List Ptr) :
    (MessagePool.acquire (MessagePool.release ⟨[]⟩ x) = .returns x ⟨[]⟩ ∧
        MessagePool.acquire ⟨[]⟩ = .blocks) ∧
      (PacketPool.getPacket (PacketPool.returnPacket ⟨[]⟩ x) = .returns x ⟨[]⟩ ∧
        PacketPool.getPacket ⟨[]⟩ = .blocks) ∧
      Sys.run i ⟨[], leased⟩ [.release x, .acquire] = some ⟨[], x :: leased.erase x⟩ ∧
      Sys.run i ⟨[], leased⟩ [.release x, .acquire, .acquire] = none := by
  refine ⟨⟨rfl, rfl⟩, ⟨rfl, rfl⟩, ?_, ?_⟩
  · simp [Sys.run, Sys.step_release, Sys.step_acquire_cons]
  · simp [Sys.run, Sys.step_release, Sys.step_acquire_cons, Sys.step_acquire_nil]

/-! ## Failures -/

/-- C9, as the code behaves.  When the `(j+1)`-th of the `N` constructions
throws (the `j` before it succeed), the constructor of either class does not
return a pool: the exception leaves it.  The `j` items constructed before the
failure are not destroyed: nothing has been destroyed, and they are still
alive on the free store. -/
theorem ctor_failure_propagates (i : Impl) (throws : Nat → Bool) (N j : Nat) (h : Heap)
    (hj : j < N) (hk : ∀ k, k < j → throws (h.attempts + k) = false)
    (ht : throws (h.attempts + j) = true) :
    ∃ h1, i.ctor throws N h = .threw h1 ∧
      h1.constructions = h.constructions + j ∧
      h1.destroyed = h.destroyed ∧
      h1.live = h.live ++ List.range' h.next j := by
  refine ⟨h.afterFailedNew j, Impl.ctor_throws i throws N j h hj hk ht, ?_⟩
  simp [Heap.afterFailedNew, Heap.afterNew]

/-- Witness of C9 as amended: the second of five constructions throws. -/
theorem ctor_failure_propagates_witness :
    ∃ h1, Impl.ctor .packetPool (fun k => decide (k = 1)) 5 Heap.fresh = .threw h1 ∧
      h1.constructions = Heap.fresh.constructions + 1 ∧
      h1.destroyed = Heap.fresh.destroyed ∧
      h1.live = Heap.fresh.live ++ List.range' Heap.fresh.next 1 :=
  ctor_failure_propagates .packetPool (fun k => decide (k = 1)) 5 1 Heap.fresh
    (by decide) (by intro k hk; interval_cases k; rfl) (by decide)

/-- Counterexample to C9 as stated: the second of five constructions throws.
Both constructors fail, and the one item constructed before the failure,
item `0`, is alive afterwards and has not been destroyed. -/
theorem ctor_failure_leaks :
    MessagePool.ctor (fun k => decide (k = 1)) 5 Heap.fresh
        = .threw { next := 1, live := [0], destroyed := [], attempts := 2, constructions := 1 } ∧
      PacketPool.ctor (fun k => decide (k = 1)) 5 Heap.fresh
        = .threw { next := 1, live := [0], destroyed := [], attempts := 2, constructions := 1 } ∧
      ¬ (0 ∈ (Heap.mk 1 [0] [] 2 1).destroyed) ∧ 0 ∈ (Heap.mk 1 [0] [] 2 1).live := by
  decide

/-- C10, as the code behaves.  `release` does not look at the item it is
given.  For an item that is not leased from this pool (released before, or
never issued by it) the call still returns, with the item pushed at the back
of the queue: the queue is one longer, the leases are as they were. -/
theorem release_is_unchecked (i : Impl) (s : Sys) (x : Ptr) (hx : x ∉ s.leased) :
    ∃ s1, s.step i (.release x) = some s1 ∧
      s1.pool = s.pool ++ [x] ∧ s1.leased = s.leased ∧
      s1.pool.length + s1.leased.length = s.pool.length + s.leased.length + 1 := by
  refine ⟨_, Sys.step_release i s x, rfl, ?_, ?_⟩
  · exact List.erase_of_not_mem hx
  · simp only [List.erase_of_not_mem hx, List.length_append, List.length_singleton]
    omega

/-- Witness of C10 as amended: item `3` is in the queue, not leased, and is
released once more. -/
theorem release_is_unchecked_witness :
    3 ∉ (Sys.mk [3] []).leased ∧
      ∃ s1, (Sys.mk [3] []).step .messagePool (.release 3) = some s1 ∧
        s1.pool = (Sys.mk [3] []).pool ++ [3] ∧ s1.leased = (Sys.mk [3] []).leased ∧
        s1.pool.length + s1.leased.length
          = (Sys.mk [3] []).pool.length + (Sys.mk [3] []).leased.length + 1 :=
  ⟨by decide, release_is_unchecked .messagePool ⟨[3], []⟩ 3 (by decide)⟩

/-- Counterexample to C10 as stated: a pool of one packet; the packet is
taken, returned, and returned a second time.  The second return is not
rejected: the queue holds the packet twice, and available plus leased is 2
on a pool of capacity 1. -/
theorem double_release_is_accepted :
    Impl.ctor .packetPool (fun _ => false) 1 Heap.fresh = .built [0] (Heap.fresh.afterNew 1) ∧
      Sys.run .packetPool (Sys.ofPool [0]) [.acquire, .release 0] = some ⟨[0], []⟩ ∧
      (Sys.mk [0] []).allowed (.release 0) = false ∧
      (Sys.mk [0] []).step .packetPool (.release 0) = some ⟨[0, 0], []⟩ ∧
      PacketPool.returnPacket ⟨[0]⟩ 0 = ⟨[0, 0]⟩ ∧
      MessagePool.release ⟨[0]⟩ 0 = ⟨[0, 0]⟩ ∧
      (Sys.mk [0, 0] []).pool.length + (Sys.mk [0, 0] []).leased.length ≠ 1 := by
  decide

/-! ## Destruction -/

theorem MessagePool.dtor_eq (q : List Ptr) (h : Heap) :
    MessagePool.dtor q h
      = (⟨[]⟩, { h with live := q.foldl List.erase h.live, destroyed := h.destroyed ++ q }) := by
  induction q generalizing h with
  | nil => simp [MessagePool.dtor]
  | cons x rest ih => simp [MessagePool.dtor, ih, Heap.delete]

theorem PacketPool.dtor_drains (q : List Ptr) (h : Heap) :
    PacketPool.dtor q h
      = (⟨[]⟩, { h with live := q.foldl List.erase h.live, destroyed := h.destroyed ++ q }) := by
  induction q generalizing h with
  | nil => simp [PacketPool.dtor]
  | cons x rest ih => simp [PacketPool.dtor, ih, Heap.delete]

theorem Impl.dtor_result (i : Impl) (q : List Ptr) (h : Heap) :
    i.dtor q h
      = ([], { h with live := q.foldl List.erase h.live, destroyed := h.destroyed ++ q }) := by
  cases i <;> simp [Impl.dtor, MessagePool.dtor_eq, PacketPool.dtor_drains]

theorem Heap.mem_foldl_erase_of_not_mem (q live : List Ptr) (x : Ptr) (hx : x ∉ q) :
    x ∈ q.foldl List.erase live ↔ x ∈ live := by
  induction q generalizing live with
  | nil => rfl
  | cons y rest ih =>
    simp only [List.mem_cons, not_or] at hx
    simp only [List.foldl_cons]
    rw [ih _ hx.2]
    exact List.mem_erase_of_ne hx.1

theorem Heap.not_mem_foldl_erase (q live : List Ptr) (x : Ptr) (hx : x ∈ q)
    (hl : live.Nodup) : x ∉ q.foldl List.erase live := by
  induction q generalizing live with
  | nil => cases hx
  | cons y rest ih =>
    simp only [List.foldl_cons]
    by_cases hxr : x ∈ rest
    · exact ih _ hxr (hl.erase y)
    · have hxy : x = y := by
        rcases List.mem_cons.mp hx with h1 | h1
        · exact h1
        · exact absurd h1 hxr
      subst hxy
      rw [Heap.mem_foldl_erase_of_not_mem rest _ x hxr]
      exact fun hmem => (List.Nodup.mem_erase_iff hl).mp hmem |>.1 rfl

/-- C11 (destruction).  Take a pool, of either class, in a state where the
items in the queue and the items on lease are all distinct, and run its
destructor.  The queue is empty afterwards.  The objects destroyed by the
destructor are the items of the queue, in queue order, each of them once;
nothing is constructed.  An item on lease is not among the objects destroyed
and is alive afterwards if it was alive before.  The destructor is a plain
loop over the queue: its result does not depend on the leases, and it returns
whether or not items are on lease. -/
theorem dtor_destroys_queue_only (i : Impl) (s : Sys) (h : Heap)
    (hn : (s.pool ++ s.leased).Nodup) :
    (i.dtor s.pool h).1 = [] ∧
      (i.dtor s.pool h).2.destroyed = h.destroyed ++ s.pool ∧
      (i.dtor s.pool h).2.constructions = h.constructions ∧
      (∀ x, x ∈ s.pool → s.pool.count x = 1) ∧
      (∀ x, x ∈ s.pool → h.live.Nodup → x ∉ (i.dtor s.pool h).2.live) ∧
      (∀ x, x ∈ s.leased → s.pool.count x = 0 ∧
        (x ∈ (i.dtor s.pool h).2.live ↔ x ∈ h.live)) := by
  rw [List.nodup_append] at hn
  obtain ⟨hp, _, hd⟩ := hn
  rw [Impl.dtor_result]
  refine ⟨rfl, rfl, rfl, ?_, ?_, ?_⟩
  · intro x hx
    exact List.count_eq_one_of_mem hp hx
  · intro x hx hl
    exact Heap.not_mem_foldl_erase s.pool h.live x hx hl
  · intro x hx
    have hxp : x ∉ s.pool := fun hmem => hd hmem hx
    exact ⟨List.count_eq_zero_of_not_mem hxp,
      Heap.mem_foldl_erase_of_not_mem s.pool h.live x hxp⟩

/-- Witness of C11: a pool of three packets, the first of them on lease when
the pool is destroyed. -/
theorem dtor_destroys_queue_only_witness :
    ([1, 2] ++ [0] : List Ptr).Nodup ∧
      Impl.dtor .packetPool [1, 2] (Heap.fresh.afterNew 3)
        = ([], { next := 3, live := [0], destroyed := [1, 2], attempts := 3,
                 constructions := 3 }) ∧
      (Impl.dtor .packetPool (Sys.mk [1, 2] [0]).pool (Heap.fresh.afterNew 3)).2.destroyed
        = (Heap.fresh.afterNew 3).destroyed ++ (Sys.mk [1, 2] [0]).pool :=
  ⟨by decide, by decide,
    (dtor_destroys_queue_only .packetPool ⟨[1, 2], [0]⟩ (Heap.fresh.afterNew 3)
      (by decide)).2.1⟩

/-! ## Error code lookup -/

/-- C19 (the table agrees with the function).  For every code, in both
files, `ErrorCodeLookup::operator[]` returns the message `getErrorMessage`
returns; the messages are "Not Found" for 404, "Internal Server Error" for
500, "Service Unavailable" for 503, and "Unknown Error" for every code other
than these three. -/
theorem lookup_agrees_with_getErrorMessage (code : Int) :
    (Exercise07.ErrorCodeLookup.subscript code = Exercise07.getErrorMessage code ∧
        Project08.ErrorCodeLookup.subscript code = Project08.getErrorMessage code) ∧
      (Exercise07.getErrorMessage 404 = "Not Found" ∧
        Exercise07.getErrorMessage 500 = "Internal Server Error" ∧
        Exercise07.getErrorMessage 503 = "Service Unavailable" ∧
        Project08.getErrorMessage 404 = "Not Found" ∧
        Project08.getErrorMessage 500 = "Internal Server Error" ∧
        Project08.getErrorMessage 503 = "Service Unavailable") ∧
      (code = 404 ∨ code = 500 ∨ code = 503 ∨
        (Exercise07.getErrorMessage code = "Unknown Error" ∧
          Project08.getErrorMessage code = "Unknown Error")) := by
  refine ⟨⟨?_, ?_⟩, ⟨rfl, rfl, rfl, rfl, rfl, rfl⟩, ?_⟩
  · simp only [Exercise07.ErrorCodeLookup.subscript, Exercise07.ErrorCodeLookup.errorTable,
      Exercise07.ErrorCodeLookup.subscriptLoop, Exercise07.getErrorMessage]
    by_cases h1 : code = 404
    · subst h1; rfl
    · by_cases h2 : code = 500
      · subst h2; rfl
      · by_cases h3 : code = 503
        · subst h3; rfl
        · simp [h1, h2, h3, Ne.symm h1, Ne.symm h2, Ne.symm h3]
  · simp only [Project08.ErrorCodeLookup.subscript, Project08.ErrorCodeLookup.errorTable,
      Project08.ErrorCodeLookup.subscriptLoop, Project08.getErrorMessage]
    by_cases h1 : code = 404
    · subst h1; rfl
    · by_cases h2 : code = 500
      · subst h2; rfl
      · by_cases h3 : code = 503
        · subst h3; rfl
        · simp [h1, h2, h3, Ne.symm h1, Ne.symm h2, Ne.symm h3]
  · by_cases h1 : code = 404
    · exact Or.inl h1
    · by_cases h2 : code = 500
      · exact Or.inr (Or.inl h2)
      · by_cases h3 : code = 503
        · exact Or.inr (Or.inr (Or.inl h3))
        · refine Or.inr (Or.inr (Or.inr ?_))
          simp [Exercise07.getErrorMessage, Project08.getErrorMessage, h1, h2, h3]

/-! ## The protocol factory -/

theorem ProtocolFactory.find_after_assign (m : List (String × Ptr)) (k key : String) (p : Ptr) :
    ProtocolFactory.find (ProtocolFactory.assign m k p) key
      = if k = key then some p else ProtocolFactory.find m key := by
  induction m with
  | nil => simp [ProtocolFactory.assign, ProtocolFactory.find]
  | cons e rest ih =>
    obtain ⟨k1, p1⟩ := e
    by_cases h1 : k1 = k
    · subst h1
      by_cases h2 : k1 = key <;> simp [ProtocolFactory.assign, ProtocolFactory.find, h2]
    · by_cases h2 : k1 = key
      · subst h2
        simp [ProtocolFactory.assign, ProtocolFactory.find, h1, Ne.symm h1]
      · simp [ProtocolFactory.assign, ProtocolFactory.find, h1, h2, ih]

theorem ProtocolFactory.getProtocol_of_found (f : ProtocolFactory)
    (name version encryption : String) (p : Ptr)
    (hf : ProtocolFactory.find f.protocols_ (name ++ version ++ encryption) = some p) :
    f.getProtocol name version encryption = (p, f) := by
  simp [ProtocolFactory.getProtocol, hf]

theorem ProtocolFactory.find_after_getProtocol (f : ProtocolFactory)
    (name version encryption : String) :
    ProtocolFactory.find (f.getProtocol name version encryption).2.protocols_
        (name ++ version ++ encryption)
      = some (f.getProtocol name version encryption).1 := by
  cases hf : ProtocolFactory.find f.protocols_ (name ++ version ++ encryption) with
  | some p => simp [ProtocolFactory.getProtocol, hf]
  | none => simp [ProtocolFactory.getProtocol, hf, ProtocolFactory.find_after_assign]

theorem ProtocolFactory.find_kept_by_getProtocol (f : ProtocolFactory)
    (name version encryption key : String) (p : Ptr)
    (hf : ProtocolFactory.find f.protocols_ key = some p) :
    ProtocolFactory.find (f.getProtocol name version encryption).2.protocols_ key = some p := by
  cases hk : ProtocolFactory.find f.protocols_ (name ++ version ++ encryption) with
  | some p1 => simpa [ProtocolFactory.getProtocol, hk] using hf
  | none =>
    have hne : name ++ version ++ encryption ≠ key := by
      intro h
      rw [h, hf] at hk
      cases hk
    simp [ProtocolFactory.getProtocol, hk, ProtocolFactory.find_after_assign, hne, hf]

theorem ProtocolFactory.find_kept_by_getProtocols (calls : List (String × String × String))
    (f : ProtocolFactory) (key : String) (p : Ptr)
    (hf : ProtocolFactory.find f.protocols_ key = some p) :
    ProtocolFactory.find (f.getProtocols calls).protocols_ key = some p := by
  induction calls generalizing f with
  | nil => exact hf
  | cons c rest ih =>
    obtain ⟨name, version, encryption⟩ := c
    exact ih _ (ProtocolFactory.find_kept_by_getProtocol f name version encryption key p hf)

/-- C20 (the factory shares protocols).  Call `getProtocol` with some
`(name, version, encryption)`, then let any calls of `getProtocol` follow,
then call it again with the same three arguments.  The second call returns
the pointer the first call returned, and leaves the factory as it found it:
no entry is added to the cache and no `Protocol` is created.  The first call
creates a `Protocol` only when the cache has no entry under the key: either
it finds an entry, returns the stored pointer and changes nothing, or there
is none and it creates exactly one object and returns it. -/
theorem getProtocol_returns_shared (f : ProtocolFactory) (name version encryption : String)
    (between : List (String × String × String)) :
    (((f.getProtocol name version encryption).2.getProtocols between).getProtocol
          name version encryption).1
        = (f.getProtocol name version encryption).1 ∧
      (((f.getProtocol name version encryption).2.getProtocols between).getProtocol
          name version encryption).2
        = (f.getProtocol name version encryption).2.getProtocols between ∧
      ((ProtocolFactory.find f.protocols_ (name ++ version ++ encryption)
            = some (f.getProtocol name version encryption).1 ∧
          (f.getProtocol name version encryption).2 = f) ∨
        (ProtocolFactory.find f.protocols_ (name ++ version ++ encryption) = none ∧
          (f.getProtocol name version encryption).1 = f.next ∧
          (f.getProtocol name version encryption).2.created
            = f.created ++ [(f.next, ⟨name, version, encryption⟩)])) := by
  have h1 := ProtocolFactory.find_kept_by_getProtocols between _ _ _
    (ProtocolFactory.find_after_getProtocol f name version encryption)
  have h2 := ProtocolFactory.getProtocol_of_found _ name version encryption _ h1
  refine ⟨by rw [h2], by rw [h2], ?_⟩
  cases hf : ProtocolFactory.find f.protocols_ (name ++ version ++ encryption) with
  | some p => left; simp [ProtocolFactory.getProtocol, hf]
  | none => right; simp [ProtocolFactory.getProtocol, hf]

/-! ## The router network: connections -/

theorem UMap.find_assign {β : Type} (m : List (Int × β)) (k k1 : Int) (v : β) :
    UMap.find (UMap.assign m k v) k1 = if k = k1 then some v else UMap.find m k1 := by
  induction m with
  | nil => simp [UMap.assign, UMap.find]
  | cons e rest ih =>
    obtain ⟨k2, v2⟩ := e
    by_cases h1 : k2 = k
    · subst h1
      by_cases h2 : k2 = k1 <;> simp [UMap.assign, UMap.find, h2]
    · by_cases h2 : k2 = k1
      · subst h2
        simp [UMap.assign, UMap.find, h1, Ne.symm h1]
      · simp [UMap.assign, UMap.find, h1, h2, ih]

theorem UMap.find_erase {β : Type} (m : List (Int × β)) (k k1 : Int) :
    UMap.find (UMap.erase m k) k1 = if k = k1 then none else UMap.find m k1 := by
  induction m with
  | nil => simp [UMap.erase, UMap.find]
  | cons e rest ih =>
    obtain ⟨k2, v2⟩ := e
    simp only [UMap.erase, ne_eq, decide_not] at ih ⊢
    by_cases h1 : k2 = k
    · subst h1
      by_cases h2 : k2 = k1
      · simpa [UMap.find, h2] using ih
      · simpa [UMap.find, h2] using ih
    · by_cases h2 : k2 = k1
      · subst h2
        simp [UMap.find, h1, Ne.symm h1, List.filter_cons]
      · simpa [UMap.find, h1, h2, List.filter_cons] using ih

theorem UMap.find_append_of_none {β : Type} (m : List (Int × β)) (k k1 : Int) (v : β)
    (h : UMap.find m k = none) :
    UMap.find (m ++ [(k, v)]) k1 = if k = k1 then some v else UMap.find m k1 := by
  induction m with
  | nil => simp [UMap.find]
  | cons e rest ih =>
    obtain ⟨k2, v2⟩ := e
    simp only [UMap.find] at h
    by_cases h1 : k2 = k
    · simp [h1] at h
    · simp only [h1, if_false] at h
      by_cases h2 : k2 = k1
      · subst h2
        simp [UMap.find, Ne.symm h1]
      · simp [UMap.find, h2, ih h]

theorem UMap.find_subscript {β : Type} (dflt : β) (m : List (Int × β)) (k k1 : Int) :
    UMap.find (UMap.subscript dflt m k).2 k1
      = if k = k1 then some (UMap.subscript dflt m k).1 else UMap.find m k1 := by
  cases h : UMap.find m k with
  | some v =>
    simp only [UMap.subscript, h]
    by_cases h1 : k = k1
    · subst h1; simp [h]
    · simp [h1]
  | none =>
    simp only [UMap.subscript, h]
    exact UMap.find_append_of_none m k k1 dflt h

theorem UMap.subscript_fst {β : Type} (dflt : β) (m : List (Int × β)) (k : Int) :
    (UMap.subscript dflt m k).1 = (UMap.find m k).getD dflt := by
  cases h : UMap.find m k <;> simp [UMap.subscript, h]

theorem UMap.find_isSome_iff {β : Type} (m : List (Int × β)) (k : Int) :
    (UMap.find m k).isSome = true ↔ k ∈ m.map Prod.fst := by
  induction m with
  | nil => simp [UMap.find]
  | cons e rest ih =>
    obtain ⟨k2, v2⟩ := e
    by_cases h : k2 = k
    · simp [UMap.find, h]
    · simp [UMap.find, h, ih, Ne.symm h]

theorem UMap.keys_assign {β : Type} (m : List (Int × β)) (k : Int) (v : β) :
    (UMap.assign m k v).map Prod.fst
      = if (UMap.find m k).isSome then m.map Prod.fst else m.map Prod.fst ++ [k] := by
  induction m with
  | nil => simp [UMap.assign, UMap.find]
  | cons e rest ih =>
    obtain ⟨k2, v2⟩ := e
    by_cases h : k2 = k
    · simp [UMap.assign, UMap.find, h]
    · simp only [UMap.assign, UMap.find, h, if_false, List.map_cons, ih]
      split <;> simp

theorem UMap.wf_assign {β : Type} (m : List (Int × β)) (k : Int) (v : β) (h : UMap.WF m) :
    UMap.WF (UMap.assign m k v) := by
  unfold UMap.WF at h ⊢
  rw [UMap.keys_assign]
  split
  · exact h
  · next hk =>
    have hnot : k ∉ m.map Prod.fst := fun hmem => hk ((UMap.find_isSome_iff m k).mpr hmem)
    exact List.Nodup.append h (List.nodup_singleton k) (by simpa using hnot)

theorem UMap.wf_subscript {β : Type} (dflt : β) (m : List (Int × β)) (k : Int)
    (h : UMap.WF m) : UMap.WF (UMap.subscript dflt m k).2 := by
  cases hf : UMap.find m k with
  | some v => simpa [UMap.subscript, hf] using h
  | none =>
    simp only [UMap.subscript, hf]
    unfold UMap.WF at h ⊢
    have hnot : k ∉ m.map Prod.fst := by
      intro hmem
      have := (UMap.find_isSome_iff m k).mpr hmem
      rw [hf] at this
      cases this
    rw [List.map_append]
    exact List.Nodup.append h (List.nodup_singleton k) (by simpa using hnot)

theorem UMap.wf_erase {β : Type} (m : List (Int × β)) (k : Int) (h : UMap.WF m) :
    UMap.WF (UMap.erase m k) := by
  unfold UMap.WF UMap.erase at *
  exact List.Nodup.sublist (List.Sublist.map _ (List.filter_sublist m)) h

theorem UMap.mem_assign {β : Type} (m : List (Int × β)) (k : Int) (v : β) (e : Int × β)
    (he : e ∈ UMap.assign m k v) : e = (k, v) ∨ e ∈ m := by
  induction m with
  | nil => simpa [UMap.assign] using he
  | cons e1 rest ih =>
    obtain ⟨k2, v2⟩ := e1
    by_cases h : k2 = k
    · simp only [UMap.assign, h, if_true, List.mem_cons] at he
      rcases he with h1 | h1
      · exact Or.inl h1
      · exact Or.inr (List.mem_cons_of_mem _ h1)
    · simp only [UMap.assign, h, if_false, List.mem_cons] at he
      rcases he with h1 | h1
      · exact Or.inr (h1 ▸ List.mem_cons_self _ _)
      · rcases ih h1 with h2 | h2
        · exact Or.inl h2
        · exact Or.inr (List.mem_cons_of_mem _ h2)

theorem UMap.mem_subscript {β : Type} (dflt : β) (m : List (Int × β)) (k : Int)
    (e : Int × β) (he : e ∈ (UMap.subscript dflt m k).2) : e = (k, dflt) ∨ e ∈ m := by
  cases hf : UMap.find m k with
  | some v =>
    simp only [UMap.subscript, hf] at he
    exact Or.inr he
  | none =>
    simp only [UMap.subscript, hf, List.mem_append, List.mem_singleton] at he
    exact he.symm

theorem UMap.mem_of_find {β : Type} (m : List (Int × β)) (k : Int) (v : β)
    (h : UMap.find m k = some v) : (k, v) ∈ m := by
  induction m with
  | nil => simp [UMap.find] at h
  | cons e rest ih =>
    obtain ⟨k2, v2⟩ := e
    by_cases h1 : k2 = k
    · simp only [UMap.find, h1, if_true, Option.some.injEq] at h
      simp [h1, h]
    · simp only [UMap.find, h1, if_false] at h
      exact List.mem_cons_of_mem _ (ih h)

theorem Network.wf_inner_subscript (net : Network) (a : Int) (h : net.WF) :
    UMap.WF (UMap.subscript [] net.adj_list a).1 := by
  rw [UMap.subscript_fst]
  cases hf : UMap.find net.adj_list a with
  | none => simp [UMap.WF]
  | some inner => exact h.2 _ (UMap.mem_of_find _ _ _ hf)

theorem Network.wf_store (net : Network) (a : Int) (inner : List (Int × Int))
    (h : net.WF) (hi : UMap.WF inner) :
    Network.WF ⟨UMap.assign (UMap.subscript [] net.adj_list a).2 a inner⟩ := by
  refine ⟨UMap.wf_assign _ _ _ (UMap.wf_subscript _ _ _ h.1), ?_⟩
  intro e he
  rcases UMap.mem_assign _ _ _ _ he with h1 | h1
  · rw [h1]; exact hi
  · rcases UMap.mem_subscript _ _ _ _ h1 with h2 | h2
    · rw [h2]; simp [UMap.WF]
    · exact h.2 e h2

theorem Network.wf_call (net : Network) (c : Network.Call) (h : net.WF) : (net.call c).WF := by
  cases c with
  | addRouter r =>
    refine ⟨UMap.wf_subscript _ _ _ h.1, ?_⟩
    intro e he
    rcases UMap.mem_subscript _ _ _ _ he with h2 | h2
    · rw [h2]; simp [UMap.WF]
    · exact h.2 e h2
  | addConnection a b c =>
    exact Network.wf_store net a _ h (UMap.wf_assign _ _ _ (Network.wf_inner_subscript net a h))
  | removeConnection a b =>
    exact Network.wf_store net a _ h (UMap.wf_erase _ _ (Network.wf_inner_subscript net a h))

theorem Network.wf_foldl_call (calls : List Network.Call) (net : Network) (h : net.WF) :
    (calls.foldl Network.call net).WF := by
  induction calls generalizing net with
  | nil => exact h
  | cons c rest ih => exact ih _ (Network.wf_call net c h)

theorem Network.cost_store (net : Network) (a a1 b1 : Int) (inner : List (Int × Int)) :
    Network.cost ⟨UMap.assign (UMap.subscript [] net.adj_list a).2 a inner⟩ a1 b1
      = if a = a1 then UMap.find inner b1 else net.cost a1 b1 := by
  simp only [Network.cost, UMap.find_assign, UMap.find_subscript]
  by_cases h : a = a1 <;> simp [h]

theorem Network.find_inner_subscript (net : Network) (a b1 : Int) :
    UMap.find (UMap.subscript [] net.adj_list a).1 b1 = net.cost a b1 := by
  rw [UMap.subscript_fst, Network.cost]
  cases UMap.find net.adj_list a <;> simp [UMap.find]

/-- C15 (connections are updated one at a time).  After
`AddConnection(a, b, c)` the cost of the direct connection `a -> b` is `c`,
whether or not there was such a connection, and every other connection has
the cost it had (or is absent as before).  After `RemoveConnection(a, b)`
the connection `a -> b` is absent and every other connection is as before.
In a network built by any sequence of calls no router has two entries and no
router has two connections to the same router: a connection that exists is
updated, not duplicated. -/
theorem connection_update_frame (net : Network) (a b c a1 b1 : Int)
    (calls : List Network.Call) :
    (net.AddConnection a b c).cost a1 b1
        = (if a = a1 ∧ b = b1 then some c else net.cost a1 b1) ∧
      (net.RemoveConnection a b).cost a1 b1
        = (if a = a1 ∧ b = b1 then none else net.cost a1 b1) ∧
      (Network.build calls).WF ∧
      ((Network.build calls).AddConnection a b c).WF := by
  refine ⟨?_, ?_, ?_, ?_⟩
  · simp only [Network.AddConnection, Network.cost_store, UMap.find_assign,
      Network.find_inner_subscript]
    by_cases h1 : a = a1
    · subst h1
      by_cases h2 : b = b1 <;> simp [h2]
    · simp [h1]
  · simp only [Network.RemoveConnection, Network.cost_store, UMap.find_erase,
      Network.find_inner_subscript]
    by_cases h1 : a = a1
    · subst h1
      by_cases h2 : b = b1 <;> simp [h2]
    · simp [h1]
  · exact Network.wf_foldl_call calls _ ⟨by simp [Network.empty, UMap.WF], by simp [Network.empty]⟩
  · exact Network.wf_call _ (.addConnection a b c)
      (Network.wf_foldl_call calls _ ⟨by simp [Network.empty, UMap.WF], by simp [Network.empty]⟩)

/-! ## The router network: least cost paths -/

theorem Network.pathLoop_stuck_at_zero (fuel : Nat) (path : List Int) :
    Network.pathLoop 1 fuel [(2, 0), (0, 0)] 0 path = none := by
  induction fuel generalizing path with
  | zero => rfl
  | succ n ih =>
    have h : Network.pathLoop 1 (n + 1) [(2, 0), (0, 0)] 0 path
        = Network.pathLoop 1 n [(2, 0), (0, 0)] 0 (path ++ [0]) := rfl
    rw [h]
    exact ih _

theorem Network.mainLoop_unregistered_target :
    ∀ fuel, Network.mainLoop (fuel + 1)
        ⟨[(1, [(2, 5)])], [(1, 0)], [], [(0, 1)]⟩
      = some ⟨[(1, [(2, 5)])], [(1, 0), (2, 0)], [], []⟩ := by
  intro fuel
  cases fuel <;> rfl

theorem Network.getLeastCostPath_unregistered_target (fuel : Nat) :
    (Network.build [.addRouter 1, .addConnection 1 2 5]).GetLeastCostPath fuel 1 2 = none := by
  have hnet : Network.build [.addRouter 1, .addConnection 1 2 5] = ⟨[(1, [(2, 5)])]⟩ := by
    decide
  rw [hnet]
  cases fuel with
  | zero => rfl
  | succ n =>
    have hinit : UMap.assign (Network.initDist [(1, [(2, 5)])]) 1 0 = [(1, 0)] := by decide
    simp only [Network.GetLeastCostPath, hinit, PQ.push, List.nil_append,
      Network.mainLoop_unregistered_target n]
    cases n with
    | zero => rfl
    | succ m =>
      have h : Network.pathLoop 1 (m + 1 + 1) [] 2 []
          = Network.pathLoop 1 m [(2, 0), (0, 0)] 0 [2, 0] := rfl
      rw [h, Network.pathLoop_stuck_at_zero]

/-! ## The interval map -/

theorem IntervalMap.upper_bound_eq_none {V : Type} (m : List (Int × V)) (key : Int) :
    IntervalMap.upper_bound m key = none ↔ ∀ e ∈ m, e.1 ≤ key := by
  induction m with
  | nil => simp [IntervalMap.upper_bound]
  | cons e rest ih =>
    obtain ⟨k1, v1⟩ := e
    by_cases h : key < k1
    · simp only [IntervalMap.upper_bound, h, if_true, List.mem_cons, forall_eq_or_imp]
      constructor
      · intro h1; cases h1
      · intro h1; exact absurd h1.1 (not_le.mpr h)
    · simp only [IntervalMap.upper_bound, h, if_false, ih, List.mem_cons, forall_eq_or_imp]
      constructor
      · intro h1; exact ⟨not_lt.mp h, h1⟩
      · intro h1; exact h1.2

theorem IntervalMap.upper_bound_eq_some {V : Type} (m : List (Int × V)) (key k : Int)
    (hs : IntervalMap.Sorted m) (h : IntervalMap.upper_bound m key = some k) :
    key < k ∧ ∀ e ∈ m, (e.1 < k ↔ e.1 ≤ key) := by
  induction m with
  | nil => simp [IntervalMap.upper_bound] at h
  | cons e rest ih =>
    obtain ⟨k1, v1⟩ := e
    have hs1 := List.pairwise_cons.mp hs
    by_cases h1 : key < k1
    · simp only [IntervalMap.upper_bound, h1, if_true, Option.some.injEq] at h
      subst h
      refine ⟨h1, ?_⟩
      intro e he
      rcases List.mem_cons.mp he with h2 | h2
      · subst h2
        simp only [lt_self_iff_false, false_iff, not_le]
        exact h1
      · have := hs1.1 e h2
        simp only at this
        constructor
        · intro h3; omega
        · intro h3; omega
    · simp only [IntervalMap.upper_bound, h1, if_false] at h
      obtain ⟨h2, h3⟩ := ih hs1.2 h
      refine ⟨h2, ?_⟩
      intro e he
      rcases List.mem_cons.mp he with h4 | h4
      · subst h4
        simp only
        constructor
        · intro _; omega
        · intro _; omega
      · exact h3 e h4

theorem IntervalMap.getLast?_greatest {V : Type} (m : List (Int × V)) (e : Int × V)
    (hs : IntervalMap.Sorted m) (h : m.getLast? = some e) :
    e ∈ m ∧ ∀ e1 ∈ m, e1.1 ≤ e.1 := by
  induction m with
  | nil => simp at h
  | cons a rest ih =>
    have hs1 := List.pairwise_cons.mp hs
    cases rest with
    | nil =>
      simp only [List.getLast?_singleton, Option.some.injEq] at h
      subst h
      simp
    | cons b rest1 =>
      rw [List.getLast?_cons_cons] at h
      obtain ⟨h1, h2⟩ := ih hs1.2 h
      refine ⟨List.mem_cons_of_mem _ h1, ?_⟩
      intro e1 he1
      rcases List.mem_cons.mp he1 with h3 | h3
      · subst h3
        exact le_of_lt (hs1.1 e h1)
      · exact h2 e1 h3

theorem IntervalMap.sorted_filter {V : Type} (m : List (Int × V)) (p : Int × V → Bool)
    (hs : IntervalMap.Sorted m) : IntervalMap.Sorted (m.filter p) :=
  List.Pairwise.sublist (List.filter_sublist m) hs

/-- What `get` returns, in terms of the entries whose key is at most `key`. -/
theorem IntervalMap.get_eq {V : Type} (m : List (Int × V)) (key : Int)
    (hs : IntervalMap.Sorted m) :
    IntervalMap.get m key =
      match (m.filter fun e => decide (e.1 ≤ key)).getLast? with
      | none => .out_of_range
      | some e => .returns e.2 := by
  cases hub : IntervalMap.upper_bound m key with
  | none =>
    have hall := (IntervalMap.upper_bound_eq_none m key).mp hub
    have hfilter : (m.filter fun e => decide (e.1 ≤ key)) = m := by
      rw [List.filter_eq_self]
      intro e he
      simpa using hall e he
    rw [hfilter]
    cases m with
    | nil => simp [IntervalMap.get, IntervalMap.upper_bound, IntervalMap.begin]
    | cons a rest =>
      obtain ⟨k1, v1⟩ := a
      simp only [IntervalMap.get, hub, IntervalMap.begin, IntervalMap.prev]
      cases hl : ((k1, v1) :: rest).getLast? with
      | none => simp at hl
      | some e => simp
  | some k =>
    obtain ⟨hk, hiff⟩ := IntervalMap.upper_bound_eq_some m key k hs hub
    have hfilter : (m.filter fun e => decide (e.1 < k))
        = (m.filter fun e => decide (e.1 ≤ key)) := by
      apply List.filter_congr
      intro e he
      simp only [decide_eq_decide]
      exact hiff e he
    cases m with
    | nil => simp [IntervalMap.upper_bound] at hub
    | cons a rest =>
      obtain ⟨k1, v1⟩ := a
      simp only [IntervalMap.get, hub, IntervalMap.begin, IntervalMap.prev, hfilter]
      by_cases h1 : key < k1
      · have hk1 : k = k1 := by
          simp only [IntervalMap.upper_bound, h1, if_true, Option.some.injEq] at hub
          exact hub.symm
        have hnil : (((k1, v1) :: rest).filter fun e => decide (e.1 ≤ key)) = [] := by
          rw [List.filter_eq_nil_iff]
          intro e he
          have := (hiff e he).mpr
          simp only [decide_eq_true_eq]
          intro hle
          have hlt := this hle
          rcases List.mem_cons.mp he with h2 | h2
          · subst h2; simp only at hlt; omega
          · have := (List.pairwise_cons.mp hs).1 e h2
            simp only at this
            omega
        simp [hk1, hnil]
      · have hne : k ≠ k1 := by omega
        have hmem : (k1, v1) ∈ (((k1, v1) :: rest).filter fun e => decide (e.1 ≤ key)) := by
          simp only [List.mem_filter, List.mem_cons, true_or, decide_eq_true_eq, true_and]
          omega
        cases hl : (((k1, v1) :: rest).filter fun e => decide (e.1 ≤ key)).getLast? with
        | none =>
          rw [List.getLast?_eq_none_iff] at hl
          rw [hl] at hmem
          cases hmem
        | some e => simp [hne]

theorem IntervalMap.eq_of_key_eq {V : Type} (m : List (Int × V)) (e1 e2 : Int × V)
    (hs : IntervalMap.Sorted m) (h1 : e1 ∈ m) (h2 : e2 ∈ m) (hk : e1.1 = e2.1) : e1 = e2 := by
  induction m with
  | nil => cases h1
  | cons a rest ih =>
    have hs1 := List.pairwise_cons.mp hs
    rcases List.mem_cons.mp h1 with h3 | h3 <;> rcases List.mem_cons.mp h2 with h4 | h4
    · rw [h3, h4]
    · have := hs1.1 e2 h4
      rw [← h3, hk] at this
      exact absurd this (lt_irrefl _)
    · have := hs1.1 e1 h3
      rw [← h4, hk] at this
      exact absurd this (lt_irrefl _)
    · exact ih hs1.2 h3 h4

/-- The result of `get` on a map in key order, in terms of the stored
starts. -/
theorem IntervalMap.get_spec {V : Type} (m : List (Int × V)) (key : Int)
    (hs : IntervalMap.Sorted m) :
    (IntervalMap.get m key = .out_of_range ↔ ∀ e ∈ m, key < e.1) ∧
      (∀ v, IntervalMap.get m key = .returns v ↔
        ∃ k, (k, v) ∈ m ∧ k ≤ key ∧ ∀ e ∈ m, e.1 ≤ key → e.1 ≤ k) ∧
      IntervalMap.get m key ≠ .undefined := by
  rw [IntervalMap.get_eq m key hs]
  have hsf := IntervalMap.sorted_filter m (fun e => decide (e.1 ≤ key)) hs
  cases hl : (m.filter fun e => decide (e.1 ≤ key)).getLast? with
  | none =>
    rw [List.getLast?_eq_none_iff, List.filter_eq_nil_iff] at hl
    refine ⟨⟨fun _ e he => ?_, fun _ => rfl⟩, ?_, by simp⟩
    · have := hl e he
      simpa using this
    · intro v
      constructor
      · intro h; cases h
      · rintro ⟨k, hmem, hle, _⟩
        have := hl (k, v) hmem
        simp only [decide_eq_true_eq] at this
        exact absurd hle this
  | some e =>
    obtain ⟨hmem, hmax⟩ := IntervalMap.getLast?_greatest _ e hsf hl
    rw [List.mem_filter] at hmem
    have hle : e.1 ≤ key := by simpa using hmem.2
    refine ⟨⟨fun h => (by cases h), fun h => ?_⟩, ?_, by simp⟩
    · exact absurd (h e hmem.1) (not_lt.mpr hle)
    · intro v
      constructor
      · intro h
        simp only [Outcome.returns.injEq] at h
        subst h
        refine ⟨e.1, hmem.1, hle, ?_⟩
        intro e1 he1 hle1
        exact hmax e1 (List.mem_filter.mpr ⟨he1, by simpa using hle1⟩)
      · rintro ⟨k, hkv, hk, hgreat⟩
        have h1 : e.1 ≤ k := hgreat e hmem.1 hle
        have h2 : k ≤ e.1 := hmax (k, v) (List.mem_filter.mpr ⟨hkv, by simpa using hk⟩)
        have heq : e = (k, v) :=
          IntervalMap.eq_of_key_eq m e (k, v) hs hmem.1 hkv (le_antisymm h1 h2)
        rw [heq]

/-- C17 (what `get` returns).  On a map whose entries are in key order,
`get(key)` throws `std::out_of_range` exactly when every stored interval
start is greater than `key` (in particular when the map is empty); it returns
`v` exactly when `v` is the value stored at the greatest interval start that
is at most `key`; and it never has undefined behaviour. -/
theorem get_returns_greatest_start {V : Type} (m : List (Int × V)) (key : Int)
    (hs : IntervalMap.Sorted m) :
    (IntervalMap.get m key = .out_of_range ↔ ∀ e ∈ m, key < e.1) ∧
      (∀ v, IntervalMap.get m key = .returns v ↔
        ∃ k, (k, v) ∈ m ∧ k ≤ key ∧ ∀ e ∈ m, e.1 ≤ key → e.1 ≤ k) ∧
      IntervalMap.get m key ≠ .undefined :=
  IntervalMap.get_spec m key hs

/-- Witness of C17: the map of the demo, intervals starting at 1 and at 6;
the key 7. -/
theorem get_returns_greatest_start_witness :
    IntervalMap.Sorted [((1 : Int), 'A'), (6, 'B')] ∧
      IntervalMap.get [((1 : Int), 'A'), (6, 'B')] 7 = .returns 'B' ∧
      (IntervalMap.get [((1 : Int), 'A'), (6, 'B')] 7 = .out_of_range ↔
        ∀ e ∈ [((1 : Int), 'A'), (6, 'B')], 7 < e.1) :=
  ⟨by simp [IntervalMap.Sorted], by decide,
    (get_returns_greatest_start [((1 : Int), 'A'), (6, 'B')] 7
      (by simp [IntervalMap.Sorted])).1⟩

/-- C18 (an invalid interval is ignored).  With `start >= end` the method
`set` returns and leaves the map as it was, so every `get` gives what it gave
before the call. -/
theorem set_ignores_invalid_interval {V : Type} [DecidableEq V] (stale : IntervalMap.Stale)
    (m : List (Int × V)) (start stop : Int) (value : V) (h : start ≥ stop) :
    IntervalMap.set stale m start stop value = .returns m ∧
      ∀ m1, IntervalMap.set stale m start stop value = .returns m1 →
        ∀ key, IntervalMap.get m1 key = IntervalMap.get m key := by
  have hset : IntervalMap.set stale m start stop value = .returns m := by
    simp [IntervalMap.set, h]
  refine ⟨hset, ?_⟩
  intro m1 h1 key
  rw [hset] at h1
  cases h1
  rfl

/-- Witness of C18: `set(5, 5, 'C')` and `set(8, 4, 'C')` on the map of the
demo. -/
theorem set_ignores_invalid_interval_witness :
    IntervalMap.set .faults [((1 : Int), 'A'), (6, 'B')] 5 5 'C' =
        .returns [(1, 'A'), (6, 'B')] ∧
      IntervalMap.set .faults [((1 : Int), 'A'), (6, 'B')] 8 4 'C' =
        .returns [(1, 'A'), (6, 'B')] :=
  ⟨(set_ignores_invalid_interval .faults [((1 : Int), 'A'), (6, 'B')] 5 5 'C' (by decide)).1,
    (set_ignores_invalid_interval .faults [((1 : Int), 'A'), (6, 'B')] 8 4 'C' (by decide)).1⟩

/-- C13 at the input where the code fails: `AddRouter(1)`,
`AddConnection(1, 2, 5)`, `GetLeastCost(1, 2)`.  Router 2 is reachable from
router 1 at cost 5, but it is not a key of `adj_list`, so `dist[2]` is never
set to `INT_MAX`; read in the comparison it is created with value 0, the
connection is not relaxed and `prev[2]` is never set.  The loop that builds
the path goes from 2 to `prev[2] = 0` and stays at 0: whatever the number of
iterations allowed, `GetLeastCost` has not returned.  With `AddRouter(2)`
called as well it returns 5. -/
theorem least_cost_never_returns :
    (Network.build [.addRouter 1, .addConnection 1 2 5]).cost 1 2 = some 5 ∧
      (∀ fuel, (Network.build [.addRouter 1, .addConnection 1 2 5]).GetLeastCost fuel 1 2
        = none) ∧
      (Network.build [.addRouter 1, .addRouter 2, .addConnection 1 2 5]).GetLeastCost 2 1 2
        = some (5, ⟨[(1, [(2, 5)]), (2, [])]⟩) := by
  refine ⟨by decide, ?_, by decide⟩
  intro fuel
  simp [Network.GetLeastCost, Network.getLeastCostPath_unregistered_target]

/-- C14 at the input where the code fails: `AddRouter(1)`,
`AddConnection(1, 2, 5)`, `GetLeastCostPath(1, 2)`.  The main loop ends with
`dist[2] = 0` and no `prev[2]`; the loop that builds the path then reads
`prev[2]`, which creates it with value 0, and `prev[0]`, likewise, and never
reaches router 1: whatever the number of iterations allowed,
`GetLeastCostPath` has not returned.  With `AddRouter(2)` called as well it
returns the path 1, 2; and from a router to itself it returns the one-element
path. -/
theorem least_cost_path_never_returns :
    (Network.build [.addRouter 1, .addConnection 1 2 5]).cost 1 2 = some 5 ∧
      Network.mainLoop 1 ⟨[(1, [(2, 5)])], [(1, 0)], [], [(0, 1)]⟩
        = some ⟨[(1, [(2, 5)])], [(1, 0), (2, 0)], [], []⟩ ∧
      (∀ fuel, (Network.build [.addRouter 1, .addConnection 1 2 5]).GetLeastCostPath fuel 1 2
        = none) ∧
      (Network.build [.addRouter 1, .addRouter 2, .addConnection 1 2 5]).GetLeastCostPath 2 1 2
        = some ([1, 2], ⟨[(1, [(2, 5)]), (2, [])]⟩) ∧
      (Network.build [.addRouter 1, .addConnection 1 2 5]).GetLeastCostPath 1 1 1
        = some ([1], ⟨[(1, [(2, 5)])]⟩) := by
  refine ⟨by decide, by decide, ?_, by decide, by decide⟩
  intro fuel
  exact Network.getLeastCostPath_unregistered_target fuel

/-! ## Threads: no missed wakeup -/

theorem Shared.countP_set (p : Pc → Bool) (pcs : List Pc) (t : Nat) (a b : Pc)
    (ht : pcs[t]? = some a) :
    (pcs.set t b).countP p + (if p a then 1 else 0)
      = pcs.countP p + (if p b then 1 else 0) := by
  induction pcs generalizing t with
  | nil => simp at ht
  | cons c rest ih =>
    cases t with
    | zero =>
      simp only [List.getElem?_cons_zero, Option.some.injEq] at ht
      subst ht
      simp only [List.set_cons_zero, List.countP_cons]
      omega
    | succ t =>
      simp only [List.getElem?_cons_succ] at ht
      have := ih t ht
      simp only [List.set_cons_succ, List.countP_cons]
      omega

theorem Shared.any_set (p : Pc → Bool) (pcs : List Pc) (t : Nat) (b : Pc)
    (hb : p b = false) (h : (pcs.set t b).any p = true) : pcs.any p = true := by
  induction pcs generalizing t with
  | nil => simp at h
  | cons c rest ih =>
    cases t with
    | zero =>
      simp only [List.set_cons_zero, List.any_cons, hb, Bool.false_or] at h
      simp [h]
    | succ t =>
      simp only [List.set_cons_succ, List.any_cons, Bool.or_eq_true] at h ⊢
      rcases h with h | h
      · exact Or.inl h
      · exact Or.inr (ih t h)

theorem Shared.any_of_getElem? (p : Pc → Bool) (pcs : List Pc) (t : Nat) (a : Pc)
    (ht : pcs[t]? = some a) (ha : p a = true) : pcs.any p = true := by
  rw [List.any_eq_true]
  exact ⟨a, List.getElem?_mem ht, ha⟩

/-- One thread moves from `a` to `b`, not to the wait on `cv`, and the queue
grows by no more than the number of threads on the way does. -/
theorem Shared.noMissed_of_move (w w1 : Shared) (t : Nat) (a b : Pc)
    (hk : w.NoMissedWakeup) (ht : w.pcs[t]? = some a) (hb : b ≠ Pc.acqWait)
    (hpcs : w1.pcs = w.pcs.set t b)
    (hlen : w1.pool.length + (if a.onTheWay then 1 else 0)
      ≤ w.pool.length + (if b.onTheWay then 1 else 0)) :
    w1.NoMissedWakeup := by
  intro hw
  have hwait : w.hasWaiter = true := by
    unfold Shared.hasWaiter at hw ⊢
    rw [hpcs] at hw
    exact Shared.any_set _ w.pcs t b (by simpa using hb) hw
  have h1 := hk hwait
  have h2 := Shared.countP_set Pc.onTheWay w.pcs t a b ht
  rw [hpcs]
  omega

theorem Shared.noMissed_start (q : List Ptr) (n : Nat) :
    (Shared.start q n).NoMissedWakeup := by
  intro hw
  simp only [Shared.hasWaiter, Shared.start, List.any_eq_true, List.mem_replicate] at hw
  obtain ⟨pc, ⟨_, hpc⟩, h⟩ := hw
  subst hpc
  simp at h

theorem Shared.noMissed_lock (w w1 : Shared) (t : Nat) (a b : Pc)
    (hk : w.NoMissedWakeup) (ht : w.pcs[t]? = some a) (hb : b ≠ Pc.acqWait)
    (hab : a.onTheWay = b.onTheWay) (hs : w.lock t b = some w1) : w1.NoMissedWakeup := by
  unfold Shared.lock at hs
  split at hs
  · cases hs
    refine Shared.noMissed_of_move w _ t a b hk ht hb rfl ?_
    simp [hab]
  · cases hs

theorem Shared.noMissed_step (w w1 : Shared) (e : Event) (hk : w.NoMissedWakeup)
    (hs : w.step e = some w1) : w1.NoMissedWakeup := by
  cases e with
  | callAcquire t =>
    simp only [Shared.step] at hs
    split at hs
    · next ht =>
      cases hs
      exact Shared.noMissed_of_move w _ t .idle .acqLock hk ht (by decide) rfl (by simp [Pc.onTheWay])
    · cases hs
  | callRelease t x =>
    simp only [Shared.step] at hs
    split at hs
    · next ht =>
      cases hs
      exact Shared.noMissed_of_move w _ t .idle (.relLock x) hk ht (by simp) rfl
        (by simp [Pc.onTheWay])
    · cases hs
  | spurious t =>
    simp only [Shared.step] at hs
    split at hs
    · next ht =>
      cases hs
      exact Shared.noMissed_of_move w _ t .acqWait .acqWoken hk ht (by decide) rfl
        (by simp [Pc.onTheWay])
    · cases hs
  | notify t u =>
    simp only [Shared.step] at hs
    split at hs
    · next ht hu =>
      cases hs
      have hne : u ≠ t := by
        intro h
        rw [h, ht] at hu
        cases hu
      have hmid : Shared.NoMissedWakeup { w with pcs := w.pcs.set u .acqWoken } :=
        Shared.noMissed_of_move w _ u .acqWait .acqWoken hk hu (by decide) rfl
          (by simp [Pc.onTheWay])
      have ht1 : (w.pcs.set u Pc.acqWoken)[t]? = some Pc.relNotify := by
        rw [List.getElem?_set_ne hne]
        exact ht
      intro hw
      have hold : w.hasWaiter = true :=
        Shared.any_of_getElem? _ w.pcs u .acqWait hu (by simp)
      have h1 := hk hold
      have h2 := Shared.countP_set Pc.onTheWay w.pcs u .acqWait .acqWoken hu
      have h3 := Shared.countP_set Pc.onTheWay (w.pcs.set u .acqWoken) t .relNotify .idle ht1
      simp only [Pc.onTheWay] at h2 h3
      simp only
      omega
    · cases hs
  | run t =>
    simp only [Shared.step] at hs
    split at hs
    · next ht => exact Shared.noMissed_lock w w1 t .acqLock .acqTest hk ht (by decide) rfl hs
    · next ht => exact Shared.noMissed_lock w w1 t .acqWoken .acqTest hk ht (by decide) rfl hs
    · next ht =>
      split at hs
      · next hempty =>
        cases hs
        intro _
        have hnil : w.pool = [] := by
          cases hp : w.pool with
          | nil => rfl
          | cons x rest => rw [hp] at hempty; cases hempty
        simp [hnil]
      · cases hs
        exact Shared.noMissed_of_move w _ t .acqTest .acqPop hk ht (by decide) rfl
          (by simp [Pc.onTheWay])
    · next ht =>
      split at hs
      · next x rest hf hp =>
        cases hs
        refine Shared.noMissed_of_move w _ t .acqPop .idle hk ht (by decide) rfl ?_
        cases hpool : w.pool with
        | nil => rw [hpool] at hf; cases hf
        | cons y r =>
          rw [hpool] at hp
          cases hp
          simp [Pc.onTheWay]
      · cases hs
        exact hk
    · next x ht =>
      exact Shared.noMissed_lock w w1 t (.relLock x) (.relPush x) hk ht (by simp) rfl hs
    · next x ht =>
      cases hs
      exact Shared.noMissed_of_move w _ t (.relPush x) .relNotify hk ht (by decide) rfl
        (by simp [Pc.onTheWay, Queue.push])
    · next ht =>
      split at hs
      · cases hs
      · next hno =>
        cases hs
        intro hw
        exfalso
        apply hno
        unfold Shared.hasWaiter at hw ⊢
        exact Shared.any_set _ w.pcs t .idle (by simp) hw
    · cases hs

theorem Shared.noMissed_exec (es : List Event) (w w1 : Shared) (hk : w.NoMissedWakeup)
    (hr : w.exec es = some w1) : w1.NoMissedWakeup := by
  induction es generalizing w with
  | nil =>
    simp only [Shared.exec, Option.some.injEq] at hr
    exact hr ▸ hk
  | cons e es ih =>
    simp only [Shared.exec] at hr
    cases hstep : w.step e with
    | none => simp [hstep] at hr
    | some w2 =>
      simp only [hstep] at hr
      exact ih w2 (Shared.noMissed_step w w2 e hk hstep) hr

theorem Shared.leadsInto_spec (states targets : List Shared) (events : List Event)
    (h : Shared.leadsInto states targets events = true) (w w1 : Shared) (e : Event)
    (hw : w ∈ states) (he : e ∈ events) (hs : w.step e = some w1) : w1 ∈ targets := by
  simp only [Shared.leadsInto, List.all_eq_true] at h
  have := h w hw e he
  rw [hs] at this
  simpa using this

theorem Shared.step_of_two_threads (w w1 : Shared) (e : Event) (hlen : w.pcs.length = 2)
    (hc : e.isCall = false) (hs : w.step e = some w1) : e ∈ Event.ofTwoThreads := by
  have hnone : ∀ t : Nat, w.pcs[t + 2]? = none := by
    intro t
    rw [List.getElem?_eq_none]
    omega
  cases e with
  | callAcquire t => cases hc
  | callRelease t x => cases hc
  | run t =>
    match t with
    | 0 => simp [Event.ofTwoThreads]
    | 1 => simp [Event.ofTwoThreads]
    | t + 2 => simp [Shared.step, hnone t] at hs
  | spurious t =>
    match t with
    | 0 => simp [Event.ofTwoThreads]
    | 1 => simp [Event.ofTwoThreads]
    | t + 2 => simp [Shared.step, hnone t] at hs
  | notify t u =>
    match t, u with
    | 0, 0 => simp [Event.ofTwoThreads]
    | 0, 1 => simp [Event.ofTwoThreads]
    | 1, 0 => simp [Event.ofTwoThreads]
    | 1, 1 => simp [Event.ofTwoThreads]
    | t + 2, u => simp [Shared.step, hnone t] at hs
    | 0, u + 2 => simp [Shared.step, hnone u] at hs
    | 1, u + 2 => simp [Shared.step, hnone u] at hs

theorem Shared.two_threads_before : ∀ w ∈ Shared.beforeRelease, w.pcs.length = 2 := by
  decide

theorem Shared.two_threads_after : ∀ w ∈ Shared.afterRelease, w.pcs.length = 2 := by
  decide

theorem Shared.before_closed :
    Shared.leadsInto Shared.beforeRelease Shared.beforeRelease Event.ofTwoThreads = true := by
  decide

theorem Shared.before_to_after :
    Shared.leadsInto Shared.beforeRelease Shared.afterRelease [.callRelease 0 0] = true := by
  decide

theorem Shared.after_closed :
    Shared.leadsInto Shared.afterRelease Shared.afterRelease Event.ofTwoThreads = true := by
  decide

theorem Shared.after_returns_soon :
    ∀ w ∈ Shared.afterRelease, w.pcs[0]? = some Pc.idle → w.waiterReturnsSoon = true := by
  decide

theorem Shared.exec_append (a b : List Event) (w : Shared) :
    w.exec (a ++ b) = (w.exec a).bind fun w1 => w1.exec b := by
  induction a generalizing w with
  | nil => rfl
  | cons e a ih =>
    simp only [List.cons_append, Shared.exec]
    cases w.step e with
    | none => rfl
    | some w1 => exact ih w1

theorem Shared.exec_stays_in (states : List Shared)
    (hlen : ∀ w ∈ states, w.pcs.length = 2)
    (hclosed : Shared.leadsInto states states Event.ofTwoThreads = true)
    (es : List Event) (w w1 : Shared) (hw : w ∈ states)
    (hes : es.all (fun e => !e.isCall) = true) (hr : w.exec es = some w1) : w1 ∈ states := by
  induction es generalizing w with
  | nil =>
    simp only [Shared.exec, Option.some.injEq] at hr
    exact hr ▸ hw
  | cons e es ih =>
    simp only [Shared.exec] at hr
    simp only [List.all_cons, Bool.and_eq_true, Bool.not_eq_true'] at hes
    cases hstep : w.step e with
    | none => simp [hstep] at hr
    | some w2 =>
      simp only [hstep] at hr
      have he := Shared.step_of_two_threads w w2 e (hlen w hw) hes.1 hstep
      have hw2 := Shared.leadsInto_spec states states _ hclosed w w2 e hw he hstep
      exact ih w2 hw2 (by simpa using hes.2) hr

theorem Shared.woken_thread_returns (w : Shared) (t : Nat) (x : Ptr) (rest : List Ptr)
    (hm : w.m = none) (ht : w.pcs[t]? = some Pc.acqWoken) (hp : w.pool = x :: rest) :
    ∃ w1, w.exec [.run t, .run t, .run t] = some w1 ∧
      w1.returned = w.returned ++ [(t, x)] ∧ w1.pool = rest ∧ w1.m = none ∧
      w1.pcs[t]? = some Pc.idle := by
  have h1 : w.step (.run t) = some { w with m := some t, pcs := w.pcs.set t .acqTest } := by
    simp [Shared.step, ht, Shared.lock, hm]
  have ht1 : (w.pcs.set t Pc.acqTest)[t]? = some Pc.acqTest :=
    Shared.getElem?_set_self_of_some w.pcs t _ _ ht
  have h2 : Shared.step { w with m := some t, pcs := w.pcs.set t .acqTest } (.run t)
      = some { w with m := some t, pcs := w.pcs.set t .acqPop } := by
    simp [Shared.step, ht1, hp, Queue.empty]
  have ht2 : (w.pcs.set t Pc.acqPop)[t]? = some Pc.acqPop :=
    Shared.getElem?_set_self_of_some w.pcs t _ _ ht
  have h3 : Shared.step { w with m := some t, pcs := w.pcs.set t .acqPop } (.run t)
      = some { w with
          pool := rest
          m := none
          pcs := w.pcs.set t .idle
          returned := w.returned ++ [(t, x)] } := by
    simp [Shared.step, ht2, hp, Queue.front, Queue.pop]
  refine ⟨{ w with
      pool := rest
      m := none
      pcs := w.pcs.set t .idle
      returned := w.returned ++ [(t, x)] }, ?_, rfl, rfl, rfl,
    Shared.getElem?_set_self_of_some w.pcs t _ .idle ht⟩
  simp only [Shared.exec, h1, h2, h3]

/-- C12 (no missed wakeup), time counted in steps of the threads.

* The scenario of the claim is reachable: on a pool of capacity 1 with two
  threads, thread A takes the item and thread B, finding the queue empty,
  blocks in `acquire`.
* From there, under every schedule in which A calls `release` once and no
  other call is made (spurious wakeups of B included), once A has returned
  from `release`, B returns from `acquire` with the item after at most three
  steps of its own, each of them possible.
* In general, a thread at `cv.notify_one()` cannot go on without waking a
  waiter when there is one, and it can wake each of them; a woken thread that
  finds the mutex free and the queue non-empty returns with the front item
  after three steps of its own.
* In every state reachable from a new pool with any number of threads, when
  some thread is blocked on `cv`, each item in the queue is matched by a
  thread on its way to take an item or to notify: no state has a blocked
  thread, an item in the queue and nobody to wake the thread. -/
theorem no_missed_wakeup :
    (Shared.start [0] 2).exec
        [.callAcquire 0, .run 0, .run 0, .run 0, .callAcquire 1, .run 1, .run 1]
        = some Shared.holderAndWaiter ∧
      (∀ (es1 es2 : List Event) (w : Shared),
        es1.all (fun e => !e.isCall) = true → es2.all (fun e => !e.isCall) = true →
        Shared.holderAndWaiter.exec (es1 ++ Event.callRelease 0 0 :: es2) = some w →
        w.pcs[0]? = some Pc.idle →
          ∃ k, k ≤ 3 ∧ w.exec (List.replicate k (Event.run 1)) = some Shared.bothReturned) ∧
      (∀ (w : Shared) (t u : Nat),
        w.pcs[t]? = some Pc.relNotify → w.pcs[u]? = some Pc.acqWait →
          w.step (.run t) = none ∧
            w.step (.notify t u)
              = some { w with m := none, pcs := (w.pcs.set u .acqWoken).set t .idle }) ∧
      (∀ (w : Shared) (t : Nat) (x : Ptr) (rest : List Ptr),
        w.m = none → w.pcs[t]? = some Pc.acqWoken → w.pool = x :: rest →
          ∃ w1, w.exec [.run t, .run t, .run t] = some w1 ∧
            w1.returned = w.returned ++ [(t, x)] ∧ w1.pool = rest ∧ w1.m = none ∧
            w1.pcs[t]? = some Pc.idle) ∧
      (∀ (q : List Ptr) (n : Nat) (es : List Event) (w : Shared),
        (Shared.start q n).exec es = some w → w.hasWaiter = true →
          w.pool.length ≤ w.pcs.countP Pc.onTheWay) := by
  refine ⟨by decide, ?_, ?_, Shared.woken_thread_returns, ?_⟩
  · intro es1 es2 w h1 h2 hr hidle
    rw [Shared.exec_append] at hr
    cases hmid : Shared.holderAndWaiter.exec es1 with
    | none => simp [hmid] at hr
    | some wa =>
      have hwa : wa ∈ Shared.beforeRelease :=
        Shared.exec_stays_in _ Shared.two_threads_before Shared.before_closed es1 _ wa
          (by simp [Shared.beforeRelease]) h1 hmid
      simp only [hmid, Option.some_bind, Shared.exec] at hr
      cases hcall : wa.step (.callRelease 0 0) with
      | none => simp [hcall] at hr
      | some wb =>
        simp only [hcall] at hr
        have hwb : wb ∈ Shared.afterRelease :=
          Shared.leadsInto_spec _ _ _ Shared.before_to_after wa wb _ hwa (by simp) hcall
        have hw : w ∈ Shared.afterRelease :=
          Shared.exec_stays_in _ Shared.two_threads_after Shared.after_closed es2 wb w hwb h2 hr
        have hsoon := Shared.after_returns_soon w hw hidle
        simp only [Shared.waiterReturnsSoon, List.any_eq_true, List.mem_range,
          decide_eq_true_eq] at hsoon
        obtain ⟨k, hk, hex⟩ := hsoon
        exact ⟨k, by omega, hex⟩
  · intro w t u ht hu
    have hw : w.hasWaiter = true := Shared.any_of_getElem? _ w.pcs u .acqWait hu (by simp)
    constructor
    · simp [Shared.step, ht, hw]
    · simp [Shared.step, ht, hu]
  · intro q n es w hr hw
    exact Shared.noMissed_exec es _ w (Shared.noMissed_start q n) hr hw

/-- Witness of C12: B is woken spuriously once and waits again; A calls
`release(0)`, locks, pushes, and notifies B.  A has returned; B returns with
the item after three steps. -/
theorem no_missed_wakeup_witness :
    Shared.holderAndWaiter.exec
        ([.spurious 1, .run 1, .run 1] ++
          Event.callRelease 0 0 :: [.run 0, .run 0, .notify 0 1])
        = some { pool := [0], m := none, pcs := [.idle, .acqWoken],
                 returned := [(0, 0)], undefined := false } ∧
      (Shared.mk [0] none [.idle, .acqWoken] [(0, 0)] false).exec
          (List.replicate 3 (Event.run 1)) = some Shared.bothReturned ∧
      ∃ k, k ≤ 3 ∧
        (Shared.mk [0] none [.idle, .acqWoken] [(0, 0)] false).exec
          (List.replicate k (Event.run 1)) = some Shared.bothReturned :=
  ⟨by decide, by decide,
    no_missed_wakeup.2.1 [.spurious 1, .run 1, .run 1] [.run 0, .run 0, .notify 0 1]
      ⟨[0], none, [.idle, .acqWoken], [(0, 0)], false⟩ (by decide) (by decide) (by decide)
      (by decide)⟩

/-! ## The interval map: when `set` returns -/

theorem IntervalMap.mem_of_mem_assign {V : Type} (m : List (Int × V)) (k : Int) (v : V)
    (e : Int × V) (he : e ∈ IntervalMap.assign m k v) : e = (k, v) ∨ e ∈ m := by
  induction m with
  | nil => simpa [IntervalMap.assign] using he
  | cons a rest ih =>
    obtain ⟨k1, v1⟩ := a
    by_cases h1 : k < k1
    · simp only [IntervalMap.assign, h1, if_true, List.mem_cons] at he
      rcases he with h | h | h
      · exact Or.inl h
      · exact Or.inr (h ▸ List.mem_cons_self _ _)
      · exact Or.inr (List.mem_cons_of_mem _ h)
    · by_cases h2 : k = k1
      · simp only [IntervalMap.assign, h1, h2, if_false, if_true, List.mem_cons,
          lt_self_iff_false] at he
        rcases he with h | h
        · exact Or.inl (by rw [h, h2])
        · exact Or.inr (List.mem_cons_of_mem _ h)
      · simp only [IntervalMap.assign, h1, h2, if_false, List.mem_cons] at he
        rcases he with h | h
        · exact Or.inr (h ▸ List.mem_cons_self _ _)
        · rcases ih h with h3 | h3
          · exact Or.inl h3
          · exact Or.inr (List.mem_cons_of_mem _ h3)

theorem IntervalMap.mem_assign_self {V : Type} (m : List (Int × V)) (k : Int) (v : V) :
    (k, v) ∈ IntervalMap.assign m k v := by
  induction m with
  | nil => simp [IntervalMap.assign]
  | cons a rest ih =>
    obtain ⟨k1, v1⟩ := a
    by_cases h1 : k < k1
    · simp [IntervalMap.assign, h1]
    · by_cases h2 : k = k1
      · simp [IntervalMap.assign, h2]
      · simp only [IntervalMap.assign, h1, h2, if_false]
        exact List.mem_cons_of_mem _ ih

theorem IntervalMap.mem_assign_of_ne {V : Type} (m : List (Int × V)) (k : Int) (v : V)
    (e : Int × V) (he : e ∈ m) (hne : e.1 ≠ k) : e ∈ IntervalMap.assign m k v := by
  induction m with
  | nil => cases he
  | cons a rest ih =>
    obtain ⟨k1, v1⟩ := a
    by_cases h1 : k < k1
    · simp only [IntervalMap.assign, h1, if_true]
      exact List.mem_cons_of_mem _ he
    · by_cases h2 : k = k1
      · simp only [IntervalMap.assign, h2, lt_self_iff_false, if_false, if_true]
        rcases List.mem_cons.mp he with h | h
        · exact absurd (by rw [h, h2]) hne
        · exact List.mem_cons_of_mem _ h
      · simp only [IntervalMap.assign, h1, h2, if_false]
        rcases List.mem_cons.mp he with h | h
        · exact h ▸ List.mem_cons_self _ _
        · exact List.mem_cons_of_mem _ (ih h)

theorem IntervalMap.sorted_assign {V : Type} (m : List (Int × V)) (k : Int) (v : V)
    (hs : IntervalMap.Sorted m) : IntervalMap.Sorted (IntervalMap.assign m k v) := by
  induction m with
  | nil => simp [IntervalMap.assign, IntervalMap.Sorted]
  | cons a rest ih =>
    obtain ⟨k1, v1⟩ := a
    have hs1 := List.pairwise_cons.mp hs
    by_cases h1 : k < k1
    · simp only [IntervalMap.assign, h1, if_true]
      refine List.pairwise_cons.mpr ⟨?_, hs⟩
      intro e he
      rcases List.mem_cons.mp he with h | h
      · rw [h]; exact h1
      · exact lt_trans h1 (hs1.1 e h)
    · by_cases h2 : k = k1
      · simp only [IntervalMap.assign, h2, lt_self_iff_false, if_false, if_true]
        exact List.pairwise_cons.mpr ⟨hs1.1, hs1.2⟩
      · simp only [IntervalMap.assign, h1, h2, if_false]
        refine List.pairwise_cons.mpr ⟨?_, ih hs1.2⟩
        intro e he
        rcases IntervalMap.mem_of_mem_assign rest k v e he with h | h
        · rw [h]
          simp only
          omega
        · exact hs1.1 e h

theorem IntervalMap.bounds_agree {V : Type} (m : List (Int × V)) (start stop : Int)
    (hlt : start < stop) (hno : ∀ e ∈ m, e.1 < start ∨ stop < e.1) :
    IntervalMap.lower_bound m start = IntervalMap.upper_bound m stop := by
  induction m with
  | nil => rfl
  | cons a rest ih =>
    obtain ⟨k1, v1⟩ := a
    have hrest : ∀ e ∈ rest, e.1 < start ∨ stop < e.1 :=
      fun e he => hno e (List.mem_cons_of_mem _ he)
    rcases hno (k1, v1) (List.mem_cons_self _ _) with h | h
    · have h1 : ¬ start ≤ k1 := by simp only at h; omega
      have h2 : ¬ stop < k1 := by simp only at h; omega
      simp only [IntervalMap.lower_bound, IntervalMap.upper_bound, h1, h2, if_false]
      exact ih hrest
    · have h1 : start ≤ k1 := by simp only at h; omega
      have h2 : stop < k1 := h
      simp [IntervalMap.lower_bound, IntervalMap.upper_bound, h1, h2]

theorem IntervalMap.lower_bound_eq_none {V : Type} (m : List (Int × V)) (key : Int)
    (h : IntervalMap.lower_bound m key = none) : ∀ e ∈ m, e.1 < key := by
  induction m with
  | nil => intro e he; cases he
  | cons a rest ih =>
    obtain ⟨k1, v1⟩ := a
    by_cases h1 : key ≤ k1
    · simp [IntervalMap.lower_bound, h1] at h
    · simp only [IntervalMap.lower_bound, h1, if_false] at h
      intro e he
      rcases List.mem_cons.mp he with h2 | h2
      · subst h2
        simp only
        omega
      · exact ih h e h2

theorem IntervalMap.lower_bound_eq_some {V : Type} (m : List (Int × V)) (key k : Int)
    (hs : IntervalMap.Sorted m) (h : IntervalMap.lower_bound m key = some k) :
    key ≤ k ∧ ∀ e ∈ m, e.1 < k → e.1 < key := by
  induction m with
  | nil => simp [IntervalMap.lower_bound] at h
  | cons a rest ih =>
    obtain ⟨k1, v1⟩ := a
    have hs1 := List.pairwise_cons.mp hs
    by_cases h1 : key ≤ k1
    · simp only [IntervalMap.lower_bound, h1, if_true, Option.some.injEq] at h
      subst h
      refine ⟨h1, ?_⟩
      intro e he hlt
      rcases List.mem_cons.mp he with h2 | h2
      · subst h2
        simp only [lt_self_iff_false] at hlt
      · have := hs1.1 e h2
        simp only at this
        omega
    · simp only [IntervalMap.lower_bound, h1, if_false] at h
      obtain ⟨h2, h3⟩ := ih hs1.2 h
      refine ⟨h2, ?_⟩
      intro e he hlt
      rcases List.mem_cons.mp he with h4 | h4
      · subst h4
        simp only
        omega
      · exact h3 e h4 hlt

theorem IntervalMap.upper_bound_mem {V : Type} (m : List (Int × V)) (key k : Int)
    (h : IntervalMap.upper_bound m key = some k) : ∃ v, (k, v) ∈ m := by
  induction m with
  | nil => simp [IntervalMap.upper_bound] at h
  | cons a rest ih =>
    obtain ⟨k1, v1⟩ := a
    by_cases h1 : key < k1
    · simp only [IntervalMap.upper_bound, h1, if_true, Option.some.injEq] at h
      subst h
      exact ⟨v1, List.mem_cons_self _ _⟩
    · simp only [IntervalMap.upper_bound, h1, if_false] at h
      obtain ⟨v, hv⟩ := ih h
      exact ⟨v, List.mem_cons_of_mem _ hv⟩

theorem IntervalMap.deref_ne_none {V : Type} (m : List (Int × V)) (k : Int) (v : V)
    (h : (k, v) ∈ m) : IntervalMap.deref m (some k) ≠ none := by
  induction m with
  | nil => cases h
  | cons a rest ih =>
    obtain ⟨k1, v1⟩ := a
    by_cases h1 : k1 = k
    · simp [IntervalMap.deref, h1]
    · simp only [IntervalMap.deref, h1, if_false]
      rcases List.mem_cons.mp h with h2 | h2
      · simp only [Prod.mk.injEq] at h2
        exact absurd h2.1.symm h1
      · exact ih h2

theorem IntervalMap.eraseRange_empty_range {V : Type} (m : List (Int × V)) (it : Option Int) :
    IntervalMap.eraseRange m it it = m := by
  cases it with
  | none => rfl
  | some a =>
    simp only [IntervalMap.eraseRange]
    rw [List.filter_eq_self]
    intro e _
    simp only [Bool.or_eq_true, decide_eq_true_eq]
    omega

theorem IntervalMap.sorted_eraseRange {V : Type} (m : List (Int × V)) (first last : Option Int)
    (hs : IntervalMap.Sorted m) : IntervalMap.Sorted (IntervalMap.eraseRange m first last) := by
  cases first with
  | none => exact hs
  | some a =>
    cases last with
    | none => exact IntervalMap.sorted_filter _ _ hs
    | some b => exact IntervalMap.sorted_filter _ _ hs

/-- What `intervals.erase(itLow, itHigh)` leaves on a map in key order: stored
elements whose start is below `start` or above `end`. -/
theorem IntervalMap.eraseRange_bounds {V : Type} (m : List (Int × V)) (start stop : Int)
    (hs : IntervalMap.Sorted m) (e : Int × V)
    (he : e ∈ IntervalMap.eraseRange m (IntervalMap.lower_bound m start)
      (IntervalMap.upper_bound m stop)) :
    e ∈ m ∧ (e.1 < start ∨ stop < e.1) := by
  cases hlo : IntervalMap.lower_bound m start with
  | none =>
    rw [hlo] at he
    exact ⟨he, Or.inl (IntervalMap.lower_bound_eq_none m start hlo e he)⟩
  | some a =>
    have hlow := (IntervalMap.lower_bound_eq_some m start a hs hlo).2
    rw [hlo] at he
    cases hhi : IntervalMap.upper_bound m stop with
    | none =>
      rw [hhi] at he
      simp only [IntervalMap.eraseRange, List.mem_filter, decide_eq_true_eq] at he
      exact ⟨he.1, Or.inl (hlow e he.1 he.2)⟩
    | some b =>
      have hb := (IntervalMap.upper_bound_eq_some m stop b hs hhi).1
      rw [hhi] at he
      simp only [IntervalMap.eraseRange, List.mem_filter, Bool.or_eq_true,
        decide_eq_true_eq] at he
      refine ⟨he.1, ?_⟩
      rcases he.2 with h | h
      · exact Or.inl (hlow e he.1 h)
      · exact Or.inr (by omega)

/-- The element `itHigh` refers to is not erased by
`intervals.erase(itLow, itHigh)`. -/
theorem IntervalMap.mem_eraseRange_of_ge {V : Type} (m : List (Int × V)) (first : Option Int)
    (b : Int) (e : Int × V) (he : e ∈ m) (hb : b ≤ e.1) :
    e ∈ IntervalMap.eraseRange m first (some b) := by
  cases first with
  | none => exact he
  | some a =>
    simp only [IntervalMap.eraseRange, List.mem_filter, Bool.or_eq_true, decide_eq_true_eq]
    exact ⟨he, Or.inr hb⟩

theorem IntervalMap.prev_ne_none {V : Type} (m : List (Int × V)) (it : Option Int)
    (e : Int × V) (he : e ∈ m) (hlt : ∀ k, it = some k → e.1 < k) :
    IntervalMap.prev m it ≠ none := by
  cases it with
  | none =>
    simp only [IntervalMap.prev, ne_eq, List.getLast?_eq_none_iff]
    intro h
    rw [h] at he
    cases he
  | some k =>
    simp only [IntervalMap.prev, ne_eq, List.getLast?_eq_none_iff, List.filter_eq_nil_iff]
    intro h
    exact h e he (by simpa using hlt k rfl)

theorem IntervalMap.prev_lt {V : Type} (m : List (Int × V)) (k : Int) (p : Int × V)
    (h : IntervalMap.prev m (some k) = some p) : p ∈ m ∧ p.1 < k := by
  simp only [IntervalMap.prev] at h
  have hmem := List.mem_of_getLast?_eq_some h
  simp only [List.mem_filter, decide_eq_true_eq] at hmem
  exact hmem

/-- Whatever `itLow` refers to, the block that looks at the previous element
keeps the map in key order with the element `(start, value)` in it, adds
nothing else, and keeps the elements from `itLow` on. -/
theorem IntervalMap.adjustPrev_spec {V : Type} [DecidableEq V] (inserted : List (Int × V))
    (it : Option Int) (start : Int) (value : V) (adjusted : List (Int × V))
    (hs : IntervalMap.Sorted inserted) (hmem : (start, value) ∈ inserted)
    (h : IntervalMap.adjustPrev inserted it start value = .returns adjusted) :
    IntervalMap.Sorted adjusted ∧ (start, value) ∈ adjusted ∧
      (∀ e ∈ adjusted, e = (start, value) ∨ e ∈ inserted) ∧
      ∀ k, it = some k → ∀ e ∈ inserted, k ≤ e.1 → e.1 ≠ start → e ∈ adjusted := by
  unfold IntervalMap.adjustPrev at h
  split at h
  · cases hp : IntervalMap.prev inserted it with
    | none => simp [hp] at h
    | some p =>
      simp only [hp] at h
      split at h
      · simp only [Outcome.returns.injEq] at h
        subst h
        refine ⟨IntervalMap.sorted_assign _ _ _ (IntervalMap.sorted_filter _ _ hs),
          IntervalMap.mem_assign_self _ _ _, ?_, ?_⟩
        · intro e he
          rcases IntervalMap.mem_of_mem_assign _ _ _ _ he with h1 | h1
          · exact Or.inl h1
          · exact Or.inr (List.mem_filter.mp h1).1
        · intro k hk e he hle hne
          subst hk
          have hlt := (IntervalMap.prev_lt inserted k p hp).2
          apply IntervalMap.mem_assign_of_ne _ _ _ _ _ hne
          simp only [IntervalMap.eraseAt, List.mem_filter, decide_eq_true_eq]
          exact ⟨he, by omega⟩
      · simp only [Outcome.returns.injEq] at h
        subst h
        exact ⟨hs, hmem, fun e he => Or.inr he, fun _ _ e he _ _ => he⟩
  · simp only [Outcome.returns.injEq] at h
    subst h
    exact ⟨hs, hmem, fun e he => Or.inr he, fun _ _ e he _ _ => he⟩

/-- The block that looks at the previous element returns when `itLow` is
`end()` or refers to an element whose start is `start` or above. -/
theorem IntervalMap.adjustPrev_returns {V : Type} [DecidableEq V] (inserted : List (Int × V))
    (it : Option Int) (start : Int) (value : V)
    (hs : IntervalMap.Sorted inserted) (hmem : (start, value) ∈ inserted)
    (hle : ∀ k, it = some k → start ≤ k) :
    ∃ adjusted, IntervalMap.adjustPrev inserted it start value = .returns adjusted := by
  unfold IntervalMap.adjustPrev
  split
  · next hne =>
    have hprev : IntervalMap.prev inserted it ≠ none := by
      by_cases hk : it = some start
      · cases inserted with
        | nil => cases hmem
        | cons a rest =>
          have hs1 := List.pairwise_cons.mp hs
          have ha : a.1 ≠ start := by
            intro ha
            apply hne
            rw [hk]
            obtain ⟨k1, v1⟩ := a
            simp only at ha
            simp [IntervalMap.begin, ha]
          have hin : (start, value) ∈ rest := by
            rcases List.mem_cons.mp hmem with h1 | h1
            · exact absurd (by rw [← h1]) ha
            · exact h1
          have hlt := hs1.1 _ hin
          simp only at hlt
          apply IntervalMap.prev_ne_none _ _ a (List.mem_cons_self _ _)
          intro k hk1
          rw [hk] at hk1
          simp only [Option.some.injEq] at hk1
          omega
      · apply IntervalMap.prev_ne_none _ _ (start, value) hmem
        intro k hk1
        have h1 := hle k hk1
        have h2 : k ≠ start := by
          intro h2
          apply hk
          rw [hk1, h2]
        simp only
        omega
    cases hp : IntervalMap.prev inserted it with
    | none => exact absurd hp hprev
    | some p =>
      simp only
      split
      · exact ⟨_, rfl⟩
      · exact ⟨_, rfl⟩
  · exact ⟨_, rfl⟩

/-- When the block that looks at `itHigh` returns, it keeps the map in key
order with the element `(start, value)` in it, and adds at most the element
`(end, value)`. -/
theorem IntervalMap.adjustNext_spec {V : Type} [DecidableEq V]
    (adjusted : List (Int × V)) (it : Option Int) (start stop : Int) (value : V)
    (m1 : List (Int × V)) (hne : start ≠ stop)
    (hs : IntervalMap.Sorted adjusted) (hmem : (start, value) ∈ adjusted)
    (h : IntervalMap.adjustNext adjusted it stop value = .returns m1) :
    IntervalMap.Sorted m1 ∧ (start, value) ∈ m1 ∧
      ∀ e ∈ m1, e = (stop, value) ∨ e ∈ adjusted := by
  unfold IntervalMap.adjustNext at h
  cases it with
  | none =>
    simp only [Outcome.returns.injEq] at h
    subst h
    exact ⟨hs, hmem, fun e he => Or.inr he⟩
  | some k =>
    simp only at h
    cases hd : IntervalMap.deref adjusted (some k) with
    | none => simp [hd] at h
    | some e1 =>
      simp only [hd] at h
      split at h
      · next hv =>
        simp only [Outcome.returns.injEq] at h
        subst h
        refine ⟨IntervalMap.sorted_assign _ _ _ hs,
          IntervalMap.mem_assign_of_ne _ _ _ _ hmem hne, ?_⟩
        intro e he
        rcases IntervalMap.mem_of_mem_assign _ _ _ _ he with h1 | h1
        · exact Or.inl (by rw [h1, hv])
        · exact Or.inr h1
      · simp only [Outcome.returns.injEq] at h
        subst h
        exact ⟨hs, hmem, fun e he => Or.inr he⟩

/-- The block that looks at `itHigh` returns when `itHigh` is `end()` or
refers to an element of the map. -/
theorem IntervalMap.adjustNext_returns {V : Type} [DecidableEq V]
    (adjusted : List (Int × V)) (it : Option Int) (stop : Int) (value : V)
    (h : ∀ k, it = some k → ∃ v, (k, v) ∈ adjusted) :
    ∃ m1, IntervalMap.adjustNext adjusted it stop value = .returns m1 := by
  unfold IntervalMap.adjustNext
  cases it with
  | none => exact ⟨_, rfl⟩
  | some k =>
    obtain ⟨v, hv⟩ := h k rfl
    simp only
    cases hd : IntervalMap.deref adjusted (some k) with
    | none => exact absurd hd (IntervalMap.deref_ne_none adjusted k v hv)
    | some e1 =>
      simp only
      split
      · exact ⟨_, rfl⟩
      · exact ⟨_, rfl⟩

/-- Whenever `set(start, end, value)` with `start < end` returns on a map in
key order, whatever the erased iterator did, the map it leaves is in key order
and `get(k)` returns `value` for every `k` with `start <= k < end`. -/
theorem IntervalMap.set_returns_spec {V : Type} [DecidableEq V] (stale : IntervalMap.Stale)
    (m : List (Int × V)) (start stop : Int) (value : V) (m1 : List (Int × V))
    (hs : IntervalMap.Sorted m) (hlt : start < stop)
    (h : IntervalMap.set stale m start stop value = .returns m1) :
    IntervalMap.Sorted m1 ∧
      ∀ k, start ≤ k → k < stop → IntervalMap.get m1 k = .returns value := by
  have h1 : ¬ start ≥ stop := by omega
  simp only [IntervalMap.set, h1, if_false] at h
  cases hit : IntervalMap.itLowWhenUsed stale m (IntervalMap.lower_bound m start)
      (IntervalMap.upper_bound m stop) start with
  | none => simp [hit] at h
  | some it =>
    simp only [hit] at h
    have hse := IntervalMap.sorted_assign _ start value
      (IntervalMap.sorted_eraseRange m (IntervalMap.lower_bound m start)
        (IntervalMap.upper_bound m stop) hs)
    cases hadj : IntervalMap.adjustPrev (IntervalMap.assign (IntervalMap.eraseRange m
        (IntervalMap.lower_bound m start) (IntervalMap.upper_bound m stop)) start value)
        it start value with
    | out_of_range => simp [hadj] at h
    | undefined => simp [hadj] at h
    | returns adjusted =>
      simp only [hadj] at h
      obtain ⟨hsa, hma, hsuba, _⟩ :=
        IntervalMap.adjustPrev_spec _ it start value adjusted hse
          (IntervalMap.mem_assign_self _ _ _) hadj
      obtain ⟨hsf, hmf, hsubf⟩ :=
        IntervalMap.adjustNext_spec adjusted _ start stop value m1 (by omega) hsa hma h
      refine ⟨hsf, ?_⟩
      intro k hk1 hk2
      rw [(IntervalMap.get_spec _ k hsf).2.1 value]
      refine ⟨start, hmf, hk1, ?_⟩
      intro e he hek
      rcases hsubf e he with h2 | h2
      · rw [h2] at hek
        simp only at hek
        omega
      · rcases hsuba e h2 with h3 | h3
        · rw [h3]
        · rcases IntervalMap.mem_of_mem_assign _ _ _ _ h3 with h4 | h4
          · rw [h4]
          · have := (IntervalMap.eraseRange_bounds m start stop hs e h4).2
            omega

/-- On a map in key order `set(start, end, value)` with `start < end` returns
when `itLow` is used as it was found or refers to the new element with the
start `start`. -/
theorem IntervalMap.set_returns_of_itLow {V : Type} [DecidableEq V] (stale : IntervalMap.Stale)
    (m : List (Int × V)) (start stop : Int) (value : V)
    (hs : IntervalMap.Sorted m) (hlt : start < stop)
    (hit : IntervalMap.itLowWhenUsed stale m (IntervalMap.lower_bound m start)
        (IntervalMap.upper_bound m stop) start = some (IntervalMap.lower_bound m start) ∨
      IntervalMap.itLowWhenUsed stale m (IntervalMap.lower_bound m start)
        (IntervalMap.upper_bound m stop) start = some (some start)) :
    ∃ m1, IntervalMap.set stale m start stop value = .returns m1 := by
  have h1 : ¬ start ≥ stop := by omega
  have hse := IntervalMap.sorted_assign _ start value
    (IntervalMap.sorted_eraseRange m (IntervalMap.lower_bound m start)
      (IntervalMap.upper_bound m stop) hs)
  have key : ∀ it : Option Int, (∀ k, it = some k → start ≤ k) →
      (∀ b, IntervalMap.upper_bound m stop = some b → ∃ k, it = some k ∧ k ≤ b) →
      IntervalMap.itLowWhenUsed stale m (IntervalMap.lower_bound m start)
        (IntervalMap.upper_bound m stop) start = some it →
      ∃ m1, IntervalMap.set stale m start stop value = .returns m1 := by
    intro it hle hhi hit1
    obtain ⟨adjusted, hadj⟩ := IntervalMap.adjustPrev_returns _ it start value hse
      (IntervalMap.mem_assign_self _ _ _) hle
    obtain ⟨_, _, _, hkeep⟩ := IntervalMap.adjustPrev_spec _ it start value adjusted hse
      (IntervalMap.mem_assign_self _ _ _) hadj
    have hnext : ∀ b, IntervalMap.upper_bound m stop = some b → ∃ v, (b, v) ∈ adjusted := by
      intro b hb
      obtain ⟨v, hv⟩ := IntervalMap.upper_bound_mem m stop b hb
      obtain ⟨k, hk, hkb⟩ := hhi b hb
      have hsb := (IntervalMap.upper_bound_eq_some m stop b hs hb).1
      refine ⟨v, hkeep k hk (b, v) ?_ hkb (by simp only; omega)⟩
      apply IntervalMap.mem_assign_of_ne _ _ _ _ _ (by simp only; omega)
      rw [hb]
      exact IntervalMap.mem_eraseRange_of_ge m _ b (b, v) hv (le_refl b)
    obtain ⟨m1, hm1⟩ := IntervalMap.adjustNext_returns adjusted
      (IntervalMap.upper_bound m stop) stop value hnext
    exact ⟨m1, by simp only [IntervalMap.set, h1, if_false, hit1, hadj, hm1]⟩
  rcases hit with hit | hit
  · apply key _ _ _ hit
    · intro k hk
      exact (IntervalMap.lower_bound_eq_some m start k hs hk).1
    · intro b hb
      obtain ⟨v, hv⟩ := IntervalMap.upper_bound_mem m stop b hb
      have hsb := (IntervalMap.upper_bound_eq_some m stop b hs hb).1
      cases hlo : IntervalMap.lower_bound m start with
      | none =>
        have := IntervalMap.lower_bound_eq_none m start hlo (b, v) hv
        simp only at this
        omega
      | some a =>
        refine ⟨a, rfl, ?_⟩
        by_contra hab
        have := (IntervalMap.lower_bound_eq_some m start a hs hlo).2 (b, v) hv
          (by simp only; omega)
        simp only at this
        omega
  · apply key _ _ _ hit
    · intro k hk
      simp only [Option.some.injEq] at hk
      omega
    · intro b hb
      have hsb := (IntervalMap.upper_bound_eq_some m stop b hs hb).1
      exact ⟨start, rfl, by omega⟩

/-- On a map in key order `set(start, end, value)` with `start < end` returns
when the call erases at most one element, or the whole map; the map it leaves
is in key order and `get(k)` returns `value` for every `k` with
`start <= k < end`. -/
theorem IntervalMap.set_of_small_erasure {V : Type} [DecidableEq V] (stale : IntervalMap.Stale)
    (m : List (Int × V)) (start stop : Int) (value : V)
    (hs : IntervalMap.Sorted m) (hlt : start < stop)
    (hsmall : m.length - (IntervalMap.eraseRange m (IntervalMap.lower_bound m start)
        (IntervalMap.upper_bound m stop)).length ≤ 1 ∨
      (IntervalMap.lower_bound m start = IntervalMap.begin m ∧
        IntervalMap.upper_bound m stop = none)) :
    ∃ m1, IntervalMap.set stale m start stop value = .returns m1 ∧ IntervalMap.Sorted m1 ∧
      ∀ k, start ≤ k → k < stop → IntervalMap.get m1 k = .returns value := by
  have hit : IntervalMap.itLowWhenUsed stale m (IntervalMap.lower_bound m start)
        (IntervalMap.upper_bound m stop) start = some (IntervalMap.lower_bound m start) ∨
      IntervalMap.itLowWhenUsed stale m (IntervalMap.lower_bound m start)
        (IntervalMap.upper_bound m stop) start = some (some start) := by
    simp only [IntervalMap.itLowWhenUsed]
    split
    · exact Or.inl rfl
    · next h0 =>
      right
      rw [if_pos]
      rcases hsmall with h | h
      · left; omega
      · right; exact h
  obtain ⟨m1, hm1⟩ := IntervalMap.set_returns_of_itLow stale m start stop value hs hlt hit
  exact ⟨m1, hm1, IntervalMap.set_returns_spec stale m start stop value m1 hs hlt hm1⟩

/-- On a map in key order `set(start, end, value)` with `start < end` returns
when no stored start lies in `[start, end]`; the map it leaves is in key order
and `get(k)` returns `value` for every `k` with `start <= k < end`. -/
theorem IntervalMap.set_of_no_overlap {V : Type} [DecidableEq V] (stale : IntervalMap.Stale)
    (m : List (Int × V)) (start stop : Int) (value : V) (hs : IntervalMap.Sorted m)
    (hlt : start < stop) (hno : ∀ e ∈ m, e.1 < start ∨ stop < e.1) :
    ∃ m1, IntervalMap.set stale m start stop value = .returns m1 ∧ IntervalMap.Sorted m1 ∧
      ∀ k, start ≤ k → k < stop → IntervalMap.get m1 k = .returns value := by
  apply IntervalMap.set_of_small_erasure stale m start stop value hs hlt
  left
  rw [IntervalMap.bounds_agree m start stop hlt hno, IntervalMap.eraseRange_empty_range]
  omega

/-! ## The packet log -/

theorem UMap.mem_assign_of_key_ne {β : Type} (m : List (Int × β)) (k : Int) (v : β)
    (e : Int × β) (he : e ∈ m) (hne : e.1 ≠ k) : e ∈ UMap.assign m k v := by
  induction m with
  | nil => cases he
  | cons a rest ih =>
    obtain ⟨k1, v1⟩ := a
    by_cases h : k1 = k
    · simp only [UMap.assign, h, if_true, List.mem_cons]
      rcases List.mem_cons.mp he with h1 | h1
      · exact absurd (by rw [h1, h]) hne
      · exact Or.inr h1
    · simp only [UMap.assign, h, if_false, List.mem_cons]
      rcases List.mem_cons.mp he with h1 | h1
      · exact Or.inl h1
      · exact Or.inr (ih h1)

theorem UMap.wf_emplace {β : Type} (m : List (Int × β)) (k : Int) (v : β) (h : UMap.WF m) :
    UMap.WF (UMap.emplace m k v) := by
  cases hf : UMap.find m k with
  | some v1 => simpa [UMap.emplace, hf] using h
  | none =>
    simp only [UMap.emplace, hf]
    unfold UMap.WF at h ⊢
    have hnot : k ∉ m.map Prod.fst := by
      intro hmem
      have := (UMap.find_isSome_iff m k).mpr hmem
      rw [hf] at this
      cases this
    rw [List.map_append]
    exact List.Nodup.append h (List.nodup_singleton k) (by simpa using hnot)

theorem UMap.mem_emplace {β : Type} (m : List (Int × β)) (k : Int) (v : β) (e : Int × β)
    (he : e ∈ UMap.emplace m k v) : e = (k, v) ∨ e ∈ m := by
  cases hf : UMap.find m k with
  | some v1 =>
    simp only [UMap.emplace, hf] at he
    exact Or.inr he
  | none =>
    simp only [UMap.emplace, hf, List.mem_append, List.mem_singleton] at he
    exact he.symm

theorem PacketLog.updatePacket_of_found (log : PacketLog) (id : Int) (payload : String)
    (packet : Packet) (hf : UMap.find log.packet_log id = some packet) :
    log.UpdatePacket id payload
      = ⟨UMap.assign log.packet_log id (packet.SetPayload payload)⟩ := by
  simp [PacketLog.UpdatePacket, hf]

theorem PacketLog.updatePacket_of_absent (log : PacketLog) (id : Int) (payload : String)
    (hf : UMap.find log.packet_log id = none) : log.UpdatePacket id payload = log := by
  simp [PacketLog.UpdatePacket, hf]

theorem PacketLog.wf_packet_call (log : PacketLog) (c : PacketLog.Call) (h : log.WF) :
    (log.call c).WF := by
  cases c with
  | addPacket packet =>
    refine ⟨UMap.wf_emplace _ _ _ h.1, ?_⟩
    intro e he
    rcases UMap.mem_emplace _ _ _ _ he with h1 | h1
    · rw [h1]
    · exact h.2 e h1
  | updatePacket id payload =>
    cases hf : UMap.find log.packet_log id with
    | none =>
      simp only [PacketLog.call, PacketLog.updatePacket_of_absent log id payload hf]
      exact h
    | some packet =>
      simp only [PacketLog.call, PacketLog.updatePacket_of_found log id payload packet hf]
      refine ⟨UMap.wf_assign _ _ _ h.1, ?_⟩
      intro e he
      rcases UMap.mem_assign _ _ _ _ he with h1 | h1
      · rw [h1]
        exact h.2 (id, packet) (UMap.mem_of_find _ _ _ hf)
      · exact h.2 e h1

theorem PacketLog.wf_foldl_packet_calls (calls : List PacketLog.Call) (log : PacketLog)
    (h : log.WF) : (calls.foldl PacketLog.call log).WF := by
  induction calls generalizing log with
  | nil => exact h
  | cons c rest ih => exact ih _ (PacketLog.wf_packet_call log c h)

theorem PacketLog.wf_build (calls : List PacketLog.Call) : (PacketLog.build calls).WF :=
  PacketLog.wf_foldl_packet_calls calls _
    ⟨by simp [PacketLog.empty, UMap.WF], by simp [PacketLog.empty]⟩

/-- C21 (`UpdatePacket` changes one payload).  If a packet is stored under
`id`, then after `UpdatePacket(id, payload)` the packet stored under `id` has
the payload `payload` and the id and timestamp it had; under every other key
the same packet is stored as before; the keys of the log and their order are
the same; every entry under another key is an entry of the log before and
after.  If no packet is stored under `id` the log is unchanged.  In a log
built by `AddPacket` and `UpdatePacket` calls every packet is stored under its
own id, once, so that a packet with the id `id` is in the log exactly when
`find(id)` finds one. -/
theorem updatePacket_changes_one_payload (log : PacketLog) (id : Int) (payload : String)
    (calls : List PacketLog.Call) :
    (∀ packet, UMap.find log.packet_log id = some packet →
        UMap.find (log.UpdatePacket id payload).packet_log id
          = some ⟨packet.id, payload, packet.timestamp⟩) ∧
      (∀ k, k ≠ id →
        UMap.find (log.UpdatePacket id payload).packet_log k = UMap.find log.packet_log k) ∧
      (log.UpdatePacket id payload).packet_log.map Prod.fst = log.packet_log.map Prod.fst ∧
      (∀ e ∈ log.packet_log, e.1 ≠ id → e ∈ (log.UpdatePacket id payload).packet_log) ∧
      (∀ e ∈ (log.UpdatePacket id payload).packet_log, e.1 ≠ id → e ∈ log.packet_log) ∧
      (UMap.find log.packet_log id = none → log.UpdatePacket id payload = log) ∧
      (PacketLog.build calls).WF ∧
      ((∃ e ∈ (PacketLog.build calls).packet_log, e.2.id = id) ↔
        (UMap.find (PacketLog.build calls).packet_log id).isSome = true) := by
  refine ⟨?_, ?_, ?_, ?_, ?_, PacketLog.updatePacket_of_absent log id payload,
    PacketLog.wf_build calls, ?_⟩
  · intro packet hf
    rw [PacketLog.updatePacket_of_found log id payload packet hf]
    simp [UMap.find_assign, Packet.SetPayload]
  · intro k hk
    cases hf : UMap.find log.packet_log id with
    | none => rw [PacketLog.updatePacket_of_absent log id payload hf]
    | some packet =>
      rw [PacketLog.updatePacket_of_found log id payload packet hf]
      simp [UMap.find_assign, Ne.symm hk]
  · cases hf : UMap.find log.packet_log id with
    | none => rw [PacketLog.updatePacket_of_absent log id payload hf]
    | some packet =>
      rw [PacketLog.updatePacket_of_found log id payload packet hf]
      simp [UMap.keys_assign, hf]
  · intro e he hne
    cases hf : UMap.find log.packet_log id with
    | none =>
      rw [PacketLog.updatePacket_of_absent log id payload hf]
      exact he
    | some packet =>
      rw [PacketLog.updatePacket_of_found log id payload packet hf]
      exact UMap.mem_assign_of_key_ne _ _ _ e he hne
  · intro e he hne
    cases hf : UMap.find log.packet_log id with
    | none =>
      rw [PacketLog.updatePacket_of_absent log id payload hf] at he
      exact he
    | some packet =>
      rw [PacketLog.updatePacket_of_found log id payload packet hf] at he
      rcases UMap.mem_assign _ _ _ _ he with h1 | h1
      · rw [h1] at hne
        exact absurd rfl hne
      · exact h1
  · have hwf := PacketLog.wf_build calls
    constructor
    · rintro ⟨e, he, hid⟩
      rw [UMap.find_isSome_iff]
      have hkey : e.1 = id := by rw [← hwf.2 e he, hid]
      exact List.mem_map.mpr ⟨e, he, hkey⟩
    · intro hsome
      cases hf : UMap.find (PacketLog.build calls).packet_log id with
      | none => rw [hf] at hsome; cases hsome
      | some packet =>
        have hmem := UMap.mem_of_find _ _ _ hf
        exact ⟨(id, packet), hmem, hwf.2 _ hmem⟩

/-- Witness of C21: a log of two packets; the payload of packet 2 is
updated, and an update of the absent packet 7 changes nothing. -/
theorem updatePacket_changes_one_payload_witness :
    UMap.find (PacketLog.mk [(1, ⟨1, "a", "t1"⟩), (2, ⟨2, "b", "t2"⟩)]).packet_log 2
        = some ⟨2, "b", "t2"⟩ ∧
      PacketLog.UpdatePacket ⟨[(1, ⟨1, "a", "t1"⟩), (2, ⟨2, "b", "t2"⟩)]⟩ 2 "new"
        = ⟨[(1, ⟨1, "a", "t1"⟩), (2, ⟨2, "new", "t2"⟩)]⟩ ∧
      UMap.find
          (PacketLog.UpdatePacket ⟨[(1, ⟨1, "a", "t1"⟩), (2, ⟨2, "b", "t2"⟩)]⟩ 2
            "new").packet_log 2
        = some ⟨(Packet.mk 2 "b" "t2").id, "new", (Packet.mk 2 "b" "t2").timestamp⟩ ∧
      UMap.find (PacketLog.mk [(1, ⟨1, "a", "t1"⟩), (2, ⟨2, "b", "t2"⟩)]).packet_log 7 = none ∧
      PacketLog.UpdatePacket ⟨[(1, ⟨1, "a", "t1"⟩), (2, ⟨2, "b", "t2"⟩)]⟩ 7 "x"
        = ⟨[(1, ⟨1, "a", "t1"⟩), (2, ⟨2, "b", "t2"⟩)]⟩ :=
  ⟨by decide, by decide,
    (updatePacket_changes_one_payload ⟨[(1, ⟨1, "a", "t1"⟩), (2, ⟨2, "b", "t2"⟩)]⟩ 2 "new"
      []).1 ⟨2, "b", "t2"⟩ (by decide),
    by decide,
    (updatePacket_changes_one_payload ⟨[(1, ⟨1, "a", "t1"⟩), (2, ⟨2, "b", "t2"⟩)]⟩ 7 "x"
      []).2.2.2.2.2.1 (by decide)⟩
